import Mathlib

/-!
# Verification of agent_eval string, patch and git-lifecycle routines

Shallow embedding of the pure decision logic of `agent_eval`
(`run/git_helpers.py`, `run/patch_utils.py`, `run/command.py`,
`evaluate/llm_client.py`) over `List Char` strings, together with
theorems checking the specification's claims against the embedding.

Python strings are modelled as `List Char`; filesystem and subprocess
effects are abstracted into explicit function parameters, as documented
at each definition.  Regular expressions from the source are translated
into dedicated scanners that follow the backtracking semantics of
Python's `re` module for the concrete pattern at hand.
-/

namespace AgentEval

/-! ## Python string primitives -/

/-- Python whitespace for `str.strip()` and the regex class `\s`
(ASCII subset: space, tab, newline, carriage return, vertical tab,
form feed; exotic Unicode whitespace is not modelled). -/
def pyIsSpace (c : Char) : Bool :=
  c = ' ' || c = '\t' || c = '\n' || c = '\r' || c = '\x0b' || c = '\x0c'

/-- Python `str.lstrip()` with no argument. -/
def pyLstrip (s : List Char) : List Char := s.dropWhile pyIsSpace

/-- Python `str.rstrip()` with no argument. -/
def pyRstrip (s : List Char) : List Char := (s.reverse.dropWhile pyIsSpace).reverse

/-- Python `str.strip()` with no argument. -/
def pyStrip (s : List Char) : List Char := pyRstrip (pyLstrip s)

/-- Python `needle in hay` (substring containment test). -/
def containsSub (hay needle : List Char) : Bool :=
  needle.isPrefixOf hay ||
    match hay with
    | [] => false
    | _ :: t => containsSub t needle

/-! ## posixpath: `isabs` and `normpath`

`os.path` on the POSIX platform, as used by `_is_safe_relpath` in
`run/git_helpers.py` (separator `/`). -/

/-- `posixpath.isabs(path)`: the path begins with the separator. -/
def isabs (s : List Char) : Bool :=
  match s with
  | '/' :: _ => true
  | _ => false

/-- Python `path.split('/')`: split into components, keeping empty parts. -/
def splitOnSlash : List Char → List (List Char)
  | [] => [[]]
  | '/' :: rest => [] :: splitOnSlash rest
  | c :: rest =>
    match splitOnSlash rest with
    | comp :: comps => (c :: comp) :: comps
    | [] => [[c]]

/-- Python `'/'.join(comps)`. -/
def joinSlash : List (List Char) → List Char
  | [] => []
  | [c] => c
  | c :: rest => c ++ '/' :: joinSlash rest

/-- One step of `posixpath.normpath`'s component loop: skip empty and
`.` components, and let `..` cancel a previous real component unless it
must be preserved (relative path with no components yet, or stacked on
another `..`). -/
def normStep (initialSlashes : Nat) (acc : List (List Char)) (comp : List Char) :
    List (List Char) :=
  if comp = [] ∨ comp = ['.'] then acc
  else if comp ≠ ['.', '.'] ∨ (initialSlashes = 0 ∧ acc = []) ∨
      (acc ≠ [] ∧ acc.getLast? = some ['.', '.']) then acc ++ [comp]
  else if acc ≠ [] then acc.dropLast
  else acc

/-- `posixpath.normpath(path)`: collapse `//` and `/./`, resolve `..`
components, preserve the special double-leading-slash case, and return
`.` for an empty result. -/
def normpath (path : List Char) : List Char :=
  if path = [] then ['.']
  else
    let initialSlashes : Nat :=
      if path.take 1 = ['/'] then
        if path.take 2 = ['/', '/'] ∧ path.take 3 ≠ ['/', '/', '/'] then 2 else 1
      else 0
    let comps := (splitOnSlash path).foldl (normStep initialSlashes) []
    let joined := List.replicate initialSlashes '/' ++ joinSlash comps
    if joined = [] then ['.'] else joined

/-! ## `_is_safe_relpath` (run/git_helpers.py)

The sidecar is attacker-controlled, so values read from it may be of any
Python type.  `PyVal` distinguishes strings from every other value. -/

/-- A Python value as far as `_is_safe_relpath` inspects it: either a
string or anything else (non-strings are all rejected identically). -/
inductive PyVal where
  | str (s : List Char)
  | nonStr
deriving DecidableEq

/-- `_is_safe_relpath(relpath)`: accept only non-empty relative path
strings whose normalized form neither escapes upward (leading `..`)
nor enters git internals (`.git` or `.git/...`). -/
def is_safe_relpath : PyVal → Bool
  | .nonStr => false
  | .str s =>
    if s = [] then false
    else if isabs s then false
    else
      let normed := normpath s
      if ['.', '.'].isPrefixOf normed then false
      else if normed = ['.', 'g', 'i', 't'] ∨ ['.', 'g', 'i', 't', '/'].isPrefixOf normed then false
      else true

/-! ## Ignored-file snapshot (`_backup_ignored_files`) and the removal
phase of `_restore_ignored_files` (run/git_helpers.py)

Filesystem state is abstracted into predicates: `isfile`, `isdir` follow
symlinks like `os.path.isfile` / `os.path.isdir`; `islink` is
`os.path.islink` (lstat-based, true for dangling links too); `st_mode`
is `os.stat(...).st_mode`. -/

/-- `_SANITIZE_SIDECAR`: the in-repo sidecar filename. -/
def SANITIZE_SIDECAR : List Char := ".agent_eval_sanitize_meta.json".data

/-- The per-path loop of `_backup_ignored_files`: for each ignored
relpath that is a regular file (following symlinks), record its
`st_mode` and copy its contents into the backup.  Returns the modes
mapping and the list of copied relpaths, in traversal order. -/
def backup_collect (isfile : List Char → Bool) (st_mode : List Char → Nat) :
    List (List Char) → List (List Char × Nat) × List (List Char)
  | [] => ([], [])
  | p :: rest =>
    let r := backup_collect isfile st_mode rest
    if isfile p then ((p, st_mode p) :: r.1, p :: r.2) else r

/-- `_backup_ignored_files(directory, backup_dir)`: list the ignored
paths (`ignored` abstracts the `git ls-files --others --ignored
--exclude-standard` output), and when both the list and `backup_dir`
are non-empty, back up contents and modes of the regular files among
them.  Returns `(pre_agent_ignored, modes, copied_relpaths)`. -/
def backup_ignored_files (ignored : List (List Char)) (backup_dir : List Char)
    (isfile : List Char → Bool) (st_mode : List Char → Nat) :
    List (List Char) × List (List Char × Nat) × List (List Char) :=
  if ignored = [] ∨ backup_dir = [] then (ignored, [], [])
  else (ignored, backup_collect isfile st_mode ignored)

/-- Phase 2 of `_restore_ignored_files`:
`new_files = current - (pre_agent_ignored | backed_up) - {_SANITIZE_SIDECAR}`,
where `current` abstracts the fresh `_list_ignored_files` output and
`backed_up` the `os.walk` of `<backup>/ignored/`. -/
def restore_new_files (current pre_agent_ignored backed_up : List (List Char)) :
    List (List Char) :=
  current.filter fun p =>
    decide (p ∉ pre_agent_ignored) && decide (p ∉ backed_up) &&
      decide (p ≠ SANITIZE_SIDECAR)

/-- The relpaths phase 2 of `_restore_ignored_files` removes: members of
`new_files` that pass `_is_safe_relpath` and exist as a symlink, regular
file, or directory (`os.path.islink(full) or os.path.isfile(full)` →
`os.remove`, `elif os.path.isdir(full)` → `shutil.rmtree`). -/
def restore_removed (current pre_agent_ignored backed_up : List (List Char))
    (islink isfile isdir : List Char → Bool) : List (List Char) :=
  (restore_new_files current pre_agent_ignored backed_up).filter fun p =>
    is_safe_relpath (.str p) && (islink p || isfile p || isdir p)

/-! ## `get_api_client` (evaluate/llm_client.py)

Only the provider-selection decision is modelled; constructing the
client object and the API key plumbing carry no further logic. -/

/-- Python `str.lower()` (ASCII case folding). -/
def pyLower (s : List Char) : List Char := s.map Char.toLower

/-- The two client classes the factory can return. -/
inductive ApiClient where
  | openaiClient
  | anthropicClient
deriving DecidableEq

/-- The model-name inference branch of `get_api_client`: `gpt-*`,
`o1-*`, `deepseek-*` → OpenAI; `claude-*` → Anthropic; anything else →
OpenAI with a warning.  The `Bool` records whether the unknown-model
warning was logged. -/
def infer_client (model_name : List Char) : ApiClient × Bool :=
  let m := pyLower model_name
  if ("gpt-".data.isPrefixOf m || "o1-".data.isPrefixOf m ||
      "deepseek-".data.isPrefixOf m) then (.openaiClient, false)
  else if "claude-".data.isPrefixOf m then (.anthropicClient, false)
  else (.openaiClient, true)

/-- `get_api_client(model_name, api_key, base_url, provider)`: an
explicit non-empty provider string takes precedence (stripped and
lowercased; anything other than `anthropic`/`openai` raises
`ValueError`, modelled as `.error ()`); otherwise the provider is
inferred from the model name. -/
def get_api_client (model_name : List Char) (provider : Option (List Char)) :
    Except Unit (ApiClient × Bool) :=
  match provider with
  | some prov =>
    if prov ≠ [] then
      let p := pyLower (pyStrip prov)
      if p = "anthropic".data then .ok (.anthropicClient, false)
      else if p = "openai".data then .ok (.openaiClient, false)
      else .error ()
    else .ok (infer_client model_name)
  | none => .ok (infer_client model_name)

/-! ## Exit codes of the run handler (run/command.py)

The tail of `handler`: the `finally` block computes `restore_failed`
from which of the three mutually-exclusive restore cases ran and whether
it raised, and afterwards the process exits 2 on restore failure, 1 on
an empty final patch, and 0 otherwise (normal return). -/

/-- `restore_failed` as set by the `finally` block: a completed setup
runs `restore_repo` (failure ⇒ true); an unstarted setup
(`mutated_flag` empty) needs no cleanup (always false); a partial setup
runs the best-effort cleanup (failure ⇒ true). -/
def handler_restore_failed (setup_done mutated restore_ok cleanup_ok : Bool) : Bool :=
  if setup_done then !restore_ok
  else if !mutated then false
  else !cleanup_ok

/-- The handler's exit code: 2 if `restore_failed`, else 1 if
`final_patch` is empty, else 0 (falling off the end of `handler`). -/
def handler_exit_code (final_patch : List Char) (restore_failed : Bool) : Nat :=
  if restore_failed then 2
  else if final_patch = [] then 1
  else 0

/-! ## Internal-file filtering of `get_patch` (run/patch_utils.py) -/

/-- The line-boundary characters of Python `str.splitlines`. -/
def isLineBoundary (c : Char) : Bool :=
  c = '\n' || c = '\r' || c = '\x0b' || c = '\x0c' ||
  c = '\x1c' || c = '\x1d' || c = '\x1e' || c = '\x85' ||
  c = '\u2028' || c = '\u2029'

/-- Python `str.splitlines(keepends=True)`: each line keeps its
terminator, `\r\n` counting as a single terminator. -/
def splitlinesKeep : List Char → List (List Char)
  | [] => []
  | '\r' :: '\n' :: rest => ['\r', '\n'] :: splitlinesKeep rest
  | c :: rest =>
    if isLineBoundary c then [c] :: splitlinesKeep rest
    else
      match splitlinesKeep rest with
      | [] => [[c]]
      | l :: ls => (c :: l) :: ls

/-- `_INTERNAL_FILES`: files that must never appear in agent patches. -/
def INTERNAL_FILES : List (List Char) := [SANITIZE_SIDECAR]

/-- `_is_internal_diff(header)`: the `diff --git` header touches an
internal file `F` iff it contains the fragment `a/F b/` or its
right-stripped form ends with `b/F`. -/
def is_internal_diff (header : List Char) : Bool :=
  INTERNAL_FILES.any fun name =>
    containsSub header ("a/".data ++ name ++ " b/".data) ||
      ("b/".data ++ name).isSuffixOf (pyRstrip header)

/-- The line loop of `_strip_internal_files`: entering a block whose
header is internal sets `skip` until the next `diff --git` header. -/
def strip_internal_loop : List (List Char) → Bool → List (List Char)
  | [], _ => []
  | l :: ls, skip =>
    let skip2 := if ("diff --git ".data).isPrefixOf l then is_internal_diff l else skip
    if skip2 then strip_internal_loop ls skip2 else l :: strip_internal_loop ls skip2

/-- `_strip_internal_files(patch)`: drop the lines of internal blocks;
if only whitespace remains, return the empty string. -/
def strip_internal_files (patch : List Char) : List Char :=
  if patch = [] then patch
  else
    let out := (strip_internal_loop (splitlinesKeep patch) false).flatten
    if pyStrip out ≠ [] then out else []

/-- The value `get_patch` returns, as a function of the raw
`git diff --cached HEAD` stdout (whitespace-only diffs count as empty,
then internal blocks are stripped). -/
def get_patch_output (raw : List Char) : List Char :=
  strip_internal_files (if pyStrip raw ≠ [] then raw else [])

/-! ## `validate_patch` (run/patch_utils.py) -/

/-- Remove the single line terminator (possibly `\r\n`) that a
`splitlinesKeep` line may end with. -/
def stripLineEnd (l : List Char) : List Char :=
  match l.getLast? with
  | some '\n' =>
    match l.dropLast.getLast? with
    | some '\r' => l.dropLast.dropLast
    | _ => l.dropLast
  | some c => if isLineBoundary c then l.dropLast else l
  | none => l

/-- Python `str.splitlines()` (keepends left at the default False). -/
def pySplitlines (s : List Char) : List (List Char) :=
  (splitlinesKeep s).map stripLineEnd

/-- Strip an exact literal prefix; `none` when the input lacks it. -/
def stripPrefixExact (pat s : List Char) : Option (List Char) :=
  match pat, s with
  | [], rest => some rest
  | p :: ps, c :: cs => if c = p then stripPrefixExact ps cs else none
  | _ :: _, [] => none

/-- Regex `\d+`: at least one digit, matched greedily (ASCII digits;
Unicode digit characters are not modelled). -/
def stripDigits1 (s : List Char) : Option (List Char) :=
  match s with
  | c :: _ => if c.isDigit then some (s.dropWhile Char.isDigit) else none
  | [] => none

/-- Regex `(?:,\d+)?` whose continuation is a literal space: the group
matches exactly when a comma followed by digits is present (a comma
without digits makes the whole match fail, because the following
literal cannot match the comma). -/
def stripOptCommaDigits (s : List Char) : Option (List Char) :=
  match s with
  | ',' :: r => stripDigits1 r
  | _ => some s

/-- `_HUNK_RE.match(line)`: anchored prefix match of
`@@ -\d+(?:,\d+)? \+\d+(?:,\d+)? @@`. -/
def hunk_match (l : List Char) : Bool :=
  ((stripPrefixExact "@@ -".data l).bind fun s1 =>
   (stripDigits1 s1).bind fun s2 =>
   (stripOptCommaDigits s2).bind fun s3 =>
   (stripPrefixExact " +".data s3).bind fun s4 =>
   (stripDigits1 s4).bind fun s5 =>
   (stripOptCommaDigits s5).bind fun s6 =>
   stripPrefixExact " @@".data s6).isSome

/-- A line starting a new per-file block. -/
def isDiffHeader (l : List Char) : Bool := ("diff --git ".data).isPrefixOf l

/-- Fuel-indexed form of the block-splitting loop (`fuel` bounds the
number of remaining lines, so the `0` case is never reached from
`mkBlocks`).  Lines before the first header are dropped, every header
starts a fresh block collecting the lines up to the next header. -/
def mkBlocksF : Nat → List (List Char) → List (List (List Char))
  | 0, _ => []
  | fuel + 1, lines =>
    match lines with
    | [] => []
    | l :: ls =>
      if isDiffHeader l then
        (l :: ls.takeWhile fun x => !isDiffHeader x) ::
          mkBlocksF fuel (ls.dropWhile fun x => !isDiffHeader x)
      else mkBlocksF fuel ls

/-- Split lines into per-file blocks at `diff --git` boundaries. -/
def mkBlocks (lines : List (List Char)) : List (List (List Char)) :=
  mkBlocksF lines.length lines

/-- Does any line of the block start with the given literal? -/
def any_startswith (pre : List Char) (b : List (List Char)) : Bool :=
  b.any fun l => pre.isPrefixOf l

/-- Rename metadata: both `rename from ` and `rename to ` lines. -/
def block_is_rename (b : List (List Char)) : Bool :=
  any_startswith "rename from ".data b && any_startswith "rename to ".data b

/-- Mode-change metadata: both `old mode ` and `new mode ` lines. -/
def block_is_mode_change (b : List (List Char)) : Bool :=
  any_startswith "old mode ".data b && any_startswith "new mode ".data b

/-- Binary metadata: a `Binary files ` line. -/
def block_is_binary (b : List (List Char)) : Bool :=
  any_startswith "Binary files ".data b

/-- At least one `--- ` file header. -/
def block_has_minus (b : List (List Char)) : Bool := any_startswith "--- ".data b

/-- At least one `+++ ` file header. -/
def block_has_plus (b : List (List Char)) : Bool := any_startswith "+++ ".data b

/-- The hunk-header lines of a block. -/
def block_hunks (b : List (List Char)) : List (List Char) := b.filter hunk_match

/-- Lines on which the content-counting loop leaves hunk scanning. -/
def leaves_hunk_scan (l : List Char) : Bool :=
  ("diff --git ".data).isPrefixOf l || ("--- ".data).isPrefixOf l ||
  ("+++ ".data).isPrefixOf l || ("index ".data).isPrefixOf l ||
  ("new file".data).isPrefixOf l || ("deleted file".data).isPrefixOf l

/-- A diff content line: non-empty with first char in space/`+`/`-`/`\`. -/
def is_content_line (l : List Char) : Bool :=
  match l with
  | c :: _ => c = ' ' || c = '+' || c = '-' || c = '\\'
  | [] => false

/-- The `in_hunk` content-line counter of `validate_patch`: a hunk
header enables counting, a metadata line disables it, and content lines
are counted only while enabled. -/
def content_count (b : List (List Char)) : Nat :=
  (b.foldl (fun st l =>
    if hunk_match l then (true, st.2)
    else if st.1 then
      if leaves_hunk_scan l then (false, st.2)
      else if is_content_line l then (st.1, st.2 + 1)
      else st
    else st) ((false, 0) : Bool × Nat)).2

/-- The `f"block {i} ({header}): {msg}"` failure reason. -/
def block_reason (i : Nat) (header msg : List Char) : List Char :=
  "block ".data ++ (Nat.repr i).data ++ " (".data ++ header ++ "): ".data ++ msg

/-- Per-block validation: metadata-only blocks with no hunks pass;
otherwise `--- `/`+++ ` headers, a hunk header and counted content are
required, reported in that order. -/
def validate_block (i : Nat) (b : List (List Char)) : Option (List Char) :=
  let header := b.headD []
  if (block_hunks b).isEmpty &&
      (block_is_rename b || block_is_mode_change b || block_is_binary b) then none
  else if !block_has_minus b || !block_has_plus b then
    some (block_reason i header "missing '---' or '+++' file headers".data)
  else if (block_hunks b).isEmpty then
    some (block_reason i header "no '@@ ... @@' hunk headers".data)
  else if content_count b = 0 then
    some (block_reason i header "hunk headers present but no diff content".data)
  else none

/-- The first failing block's reason, blocks numbered from 1. -/
def first_block_failure : Nat → List (List (List Char)) → Option (List Char)
  | _, [] => none
  | i, b :: bs =>
    match validate_block i b with
    | some r => some r
    | none => first_block_failure (i + 1) bs

/-- `validate_patch(patch)`: returns `(is_valid, reason)`. -/
def validate_patch (patch : List Char) : Bool × List Char :=
  if pyStrip patch = [] then (false, "empty patch".data)
  else
    let blocks := mkBlocks (pySplitlines (pyStrip patch))
    if blocks.isEmpty then (false, "no 'diff --git' header found".data)
    else
      match first_block_failure 1 blocks with
      | some r => (false, r)
      | none => (true, "ok (".data ++ (Nat.repr blocks.length).data ++ " file(s))".data)

/-! ## Claim-side predicates for C4 -/

/-- The per-block condition exactly as claim C4 words it: a block with
no hunk headers is accepted iff metadata-only, and any other block needs
`--- `, `+++ `, a hunk header, and a content line positioned after a
hunk header — with no state machine. -/
def claim_block_ok (b : List (List Char)) : Bool :=
  if (block_hunks b).isEmpty then
    block_is_rename b || block_is_mode_change b || block_is_binary b
  else
    block_has_minus b && block_has_plus b &&
      ((b.dropWhile fun l => !hunk_match l).drop 1).any is_content_line

/-- Validity of a patch under claim C4's literal wording. -/
def validate_patch_claim_ok (patch : List Char) : Bool :=
  !(pyStrip patch).isEmpty &&
    !(mkBlocks (pySplitlines (pyStrip patch))).isEmpty &&
    (mkBlocks (pySplitlines (pyStrip patch))).all claim_block_ok

/-- The per-block condition amended with the source's `in_hunk` state
machine: the counted content must occur while hunk scanning is active
(a `diff --git `/`--- `/`+++ `/`index `/`new file`/`deleted file` line
leaves hunk scanning until the next hunk header). -/
def amended_block_ok (b : List (List Char)) : Bool :=
  if (block_hunks b).isEmpty then
    block_is_rename b || block_is_mode_change b || block_is_binary b
  else block_has_minus b && block_has_plus b && decide (content_count b ≠ 0)

/-- Validity of a patch under the amended claim. -/
def validate_patch_amended_ok (patch : List Char) : Bool :=
  !(pyStrip patch).isEmpty &&
    !(mkBlocks (pySplitlines (pyStrip patch))).isEmpty &&
    (mkBlocks (pySplitlines (pyStrip patch))).all amended_block_ok

/-! ## `setup_starting_point` (run/git_helpers.py)

Git and filesystem effects are abstracted into an environment of pure
functions over an opaque repository-state type: queries return stripped
stdout strings, mutating commands return a new state, and commands that
can fail return `Option` (with `none` meaning a non-zero exit, leaving
the state unchanged).  Temp-file cleanup and log output carry no
repository state and are not modelled; `_sanitize_git_history` is a
single environment operation returning `(new_head, backup_dir)` and the
mutated state. -/

/-- JSON string escaping as far as `_make_sanitized_ref` needs it
(backslash and double quote; the control-character escapes of
`json.dumps` are not modelled). -/
def jsonEscape (s : List Char) : List Char :=
  (s.map fun c => if c = '\\' ∨ c = '"' then ['\\', c] else [c]).flatten

/-- `_SANITIZED_PREFIX`. -/
def SANITIZED_PREFIX : List Char := "__sanitized__:".data

/-- `_make_sanitized_ref(saved_ref, backup_dir, branch_head)`: the
prefix followed by the `json.dumps` of the three-field dict. -/
def make_sanitized_ref (saved_ref backup_dir branch_head : List Char) : List Char :=
  SANITIZED_PREFIX ++ "\x7b\"saved_ref\": \"".data ++ jsonEscape saved_ref ++
    "\", \"backup_dir\": \"".data ++ jsonEscape backup_dir ++
    "\", \"branch_head\": \"".data ++ jsonEscape branch_head ++ "\"\x7d".data

/-- `re.match(r"pr[_-]?(\d+)$", branch, re.IGNORECASE)`: the captured
digit group when the branch looks like a PR reference. -/
def pr_branch_number (b : List Char) : Option (List Char) :=
  match b with
  | p :: r :: rest =>
    if p.toLower = 'p' ∧ r.toLower = 'r' then
      let digits := match rest with
        | c :: cs => if c = '_' ∨ c = '-' then cs else rest
        | [] => rest
      if digits ≠ [] ∧ digits.all Char.isDigit then some digits else none
    else none
  | _ => none

/-- The abstract git/filesystem environment `setup_starting_point` runs
against.  The state type is opaque, so "the state is unchanged" in a
theorem is exact equality of abstract states. -/
structure GitEnv (ρ : Type) where
  /-- `os.path.abspath` -/
  abspath : List Char → List Char
  /-- `os.path.isfile` -/
  isfile : List Char → Bool
  /-- `git rev-parse --abbrev-ref HEAD` (check=False), stripped stdout -/
  revParseAbbrevHead : ρ → List Char
  /-- `git rev-parse HEAD`, stripped stdout -/
  revParseHead : ρ → List Char
  /-- `git checkout <ref>`; `none` models a non-zero exit -/
  checkout : List Char → ρ → Option ρ
  /-- `git remote get-url origin` (check=False), stripped stdout -/
  remoteGetUrlOrigin : ρ → List Char
  /-- `git fetch <url> <refspec>` (check=False); `none` = failed fetch -/
  fetch : List Char → List Char → ρ → Option ρ
  /-- `git reset --hard HEAD` -/
  resetHardHead : ρ → ρ
  /-- `git clean -fd` -/
  cleanFd : ρ → ρ
  /-- `git apply --reverse <patch>` (check=False); `none` = failure -/
  applyReverse : List Char → ρ → Option ρ
  /-- `git status --porcelain`, stripped stdout -/
  statusPorcelain : ρ → List Char
  /-- `git add -A` -/
  addAll : ρ → ρ
  /-- the baseline `git commit -m "baseline: ..."` -/
  commitBaseline : ρ → ρ
  /-- `_sanitize_git_history(directory)` = `(new_head, backup_dir)`
  and the re-initialized state -/
  sanitizeHistory : ρ → List Char × List Char × ρ
  /-- the `tempfile.mkstemp` path for the in-repo gt_patch safety copy -/
  tmpPatchPath : List Char
  /-- `os.path.abspath(directory)` -/
  directoryAbs : List Char

/-- The exceptions `setup_starting_point` can raise. -/
inductive SetupErr where
  /-- `FileNotFoundError`: the ground-truth patch does not exist -/
  | fileNotFound (path : List Char)
  /-- `RuntimeError`: branch not found locally or on remote -/
  | branchNotFound (branch : List Char)
  /-- `RuntimeError` from the checked `git checkout` after a fetch -/
  | checkoutFailed (branch : List Char)
  /-- `RuntimeError`: reverse-applying the ground-truth patch failed -/
  | applyFailed (path : List Char)
deriving DecidableEq

/-- `_mark_mutated()`: append `True` once to an initially-empty flag. -/
def mark_mutated (flag : List Bool) : List Bool :=
  if flag = [] then [true] else flag

/-- The branch-fetch fallback of step 3: resolve a remote URL (origin,
else the passed-in repo URL), try `fetch <url> <branch>:<branch>`, then
the `pull/<n>/head:<branch>` PR refspec, and finally the checked
`git checkout`.  Returns the error raised (if any) and the state. -/
def setup_checkout_fallback {ρ : Type} (env : GitEnv ρ) (st : ρ) (b : List Char)
    (repo_url : Option (List Char)) : Option SetupErr × ρ :=
  let url0 := env.remoteGetUrlOrigin st
  let resolved : Option (List Char) :=
    if url0 ≠ [] then some url0 else repo_url
  match resolved with
  | none => (some (.branchNotFound b), st)
  | some url =>
    if url = [] then (some (.branchNotFound b), st)
    else
      match env.fetch url (b ++ ':' :: b) st with
      | some st1 =>
        match env.checkout b st1 with
        | some st2 => (none, st2)
        | none => (some (.checkoutFailed b), st1)
      | none =>
        match pr_branch_number b with
        | some n =>
          match env.fetch url ("pull/".data ++ n ++ "/head:".data ++ b) st with
          | some st1 =>
            match env.checkout b st1 with
            | some st2 => (none, st2)
            | none => (some (.checkoutFailed b), st1)
          | none => (some (.branchNotFound b), st)
        | none => (some (.branchNotFound b), st)

/-- Step 3 of `setup_starting_point`: check out the target branch when
it differs from the current one, fetching it on demand, and mark the
mutated flag after a successful checkout. -/
def setup_checkout {ρ : Type} (env : GitEnv ρ) (st : ρ) (ref0 : List Char)
    (branch : Option (List Char)) (repo_url : Option (List Char))
    (flag : List Bool) : Option SetupErr × ρ × List Bool :=
  match branch with
  | none => (none, st, flag)
  | some b =>
    if ref0 = b then (none, st, flag)
    else
      match env.checkout b st with
      | some st1 => (none, st1, mark_mutated flag)
      | none =>
        match setup_checkout_fallback env st b repo_url with
        | (some e, st1) => (some e, st1, flag)
        | (none, st1) => (none, st1, mark_mutated flag)

/-- Steps 4-8 of `setup_starting_point`: safety-copy an in-repo
ground-truth patch, hard-reset and clean, reverse-apply the patch if
given, commit the baseline when that produced changes, and sanitize
history on request (encoding the original ref). -/
def setup_after_checkout {ρ : Type} (env : GitEnv ρ) (st : ρ)
    (original_ref : List Char) (gt_patch_abs : Option (List Char))
    (sanitize : Bool) (flag : List Bool) :
    Except SetupErr (List Char × List Char) × ρ × List Bool :=
  let branch_head := env.revParseHead st
  let gt_abs2 : Option (List Char) :=
    gt_patch_abs.map fun p =>
      if (env.directoryAbs ++ ['/']).isPrefixOf p then env.tmpPatchPath else p
  let flag1 := mark_mutated flag
  let st1 := env.cleanFd (env.resetHardHead st)
  match gt_abs2 with
  | none =>
    if sanitize then
      let r := env.sanitizeHistory st1
      (.ok (make_sanitized_ref original_ref r.2.1 branch_head, r.1), r.2.2, flag1)
    else (.ok (original_ref, branch_head), st1, flag1)
  | some p =>
    match env.applyReverse p st1 with
    | none => (.error (.applyFailed p), st1, flag1)
    | some st2 =>
      if env.statusPorcelain st2 = [] then
        if sanitize then
          let r := env.sanitizeHistory st2
          (.ok (make_sanitized_ref original_ref r.2.1 branch_head, r.1), r.2.2, flag1)
        else (.ok (original_ref, branch_head), st2, flag1)
      else
        let st3 := env.commitBaseline (env.addAll st2)
        let baseline := env.revParseHead st3
        if sanitize then
          let r := env.sanitizeHistory st3
          (.ok (make_sanitized_ref original_ref r.2.1 branch_head, r.1), r.2.2, flag1)
        else (.ok (original_ref, baseline), st3, flag1)

/-- Steps 2 onward: record the original ref (commit hash when detached),
then check out and continue. -/
def setup_main {ρ : Type} (env : GitEnv ρ) (st0 : ρ)
    (branch : Option (List Char)) (gt_patch_abs : Option (List Char))
    (repo_url : Option (List Char)) (sanitize : Bool)
    (mutated_flag : List Bool) :
    Except SetupErr (List Char × List Char) × ρ × List Bool :=
  let ref0 := env.revParseAbbrevHead st0
  let original_ref := if ref0 = "HEAD".data then env.revParseHead st0 else ref0
  match setup_checkout env st0 ref0 branch repo_url mutated_flag with
  | (some e, st1, flag1) => (.error e, st1, flag1)
  | (none, st1, flag1) =>
    setup_after_checkout env st1 original_ref gt_patch_abs sanitize flag1

/-- `setup_starting_point(directory, branch, gt_patch, repo_url,
sanitize, _mutated_flag)`: validate the ground-truth patch path before
any git command, then run steps 2-8.  Returns the outcome (the
`(original_ref, baseline_commit)` pair or the exception), the final
repository state, and the final mutated flag. -/
def setup_starting_point {ρ : Type} (env : GitEnv ρ) (st0 : ρ)
    (branch : Option (List Char)) (gt_patch : Option (List Char))
    (repo_url : Option (List Char)) (sanitize : Bool)
    (mutated_flag : List Bool) :
    Except SetupErr (List Char × List Char) × ρ × List Bool :=
  match gt_patch.map env.abspath with
  | some p =>
    if env.isfile p = false then (.error (.fileNotFound p), st0, mutated_flag)
    else setup_main env st0 branch (some p) repo_url sanitize mutated_flag
  | none => setup_main env st0 branch none repo_url sanitize mutated_flag

/-- A concrete demonstration environment over `Nat` states in which
every mutating git command bumps the state, making any mutation
observable, and no file exists. -/
def demoGitEnv : GitEnv Nat where
  abspath := fun q => "/abs/".data ++ q
  isfile := fun _ => false
  revParseAbbrevHead := fun _ => "main".data
  revParseHead := fun _ => "deadbeef".data
  checkout := fun _ st => some (st + 1)
  remoteGetUrlOrigin := fun _ => []
  fetch := fun _ _ st => some (st + 1)
  resetHardHead := fun st => st + 1
  cleanFd := fun st => st + 1
  applyReverse := fun _ st => some (st + 1)
  statusPorcelain := fun _ => "M x".data
  addAll := fun st => st + 1
  commitBaseline := fun st => st + 1
  sanitizeHistory := fun st => ("0123456789".data, "/tmp/agent_eval_git_bak_x".data, st + 1)
  tmpPatchPath := "/tmp/gt_safe_x.patch".data
  directoryAbs := "/repo".data

/-! ## `sanitize_prompt` (run/patch_utils.py)

Three `re.sub` passes and a final `strip()`.  Each pattern is translated
into a dedicated matcher following Python's backtracking semantics:

* `\n*\*\*Repo Link:\*\*\s*\n\[.*?\]\(.*?\)\s*\n*` → `"\n\n"`;
* `https?://(?:github\.com|gitee\.com|gitlab\.com)∧S+` (IGNORECASE)
  → `"[REDACTED]"`;
* `\n{3,}` → `"\n\n"`.

The scanners are fuel-indexed (fuel bounds the input length) so that
every definition reduces in the kernel. -/

/-- Lazy `.*?\)` with nothing after it in the group: consume
non-newline characters up to the first `)`. -/
def lazyUptoParen : List Char → Option (List Char)
  | [] => none
  | c :: cs =>
    if c = ')' then some cs
    else if c = '\n' then none
    else lazyUptoParen cs

/-- Lazy `.*?\]\(.*?\)`: at each position first try `](`, then the
inner lazy group; on failure consume one non-newline character. -/
def lazyBracketParen : List Char → Option (List Char)
  | [] => none
  | c :: cs =>
    match (if c = ']' then
             match cs with
             | '(' :: cs2 => lazyUptoParen cs2
             | _ => none
           else none) with
    | some r => some r
    | none => if c = '\n' then none else lazyBracketParen cs

/-- Match of the Repo-Link pattern at the start of the input, returning
the remainder.  The leading `\n*` and trailing `\s*\n*` are greedy and
deterministic; `\s*\n\[` succeeds exactly when the whitespace run after
the literal is non-empty, ends in a newline, and is followed by `[`. -/
def matchRepoLink (s : List Char) : Option (List Char) :=
  let s1 := s.dropWhile fun c => c = '\n'
  match stripPrefixExact "**Repo Link:**".data s1 with
  | none => none
  | some s2 =>
    let w := s2.takeWhile pyIsSpace
    let s3 := s2.dropWhile pyIsSpace
    if w ≠ [] ∧ w.getLast? = some '\n' then
      match s3 with
      | '[' :: s4 =>
        match lazyBracketParen s4 with
        | some r => some (r.dropWhile pyIsSpace)
        | none => none
      | _ => none
    else none

/-- Fuel-indexed `re.sub` scan for the Repo-Link pattern, replacing
each match with two newlines. -/
def subRepoLinkF : Nat → List Char → List Char
  | 0, s => s
  | fuel + 1, s =>
    match s with
    | [] => []
    | c :: cs =>
      match matchRepoLink (c :: cs) with
      | some r => '\n' :: '\n' :: subRepoLinkF fuel r
      | none => c :: subRepoLinkF fuel cs

/-- Stage 1 of `sanitize_prompt`: remove `**Repo Link:**` blocks. -/
def subRepoLink (s : List Char) : List Char := subRepoLinkF s.length s

/-- Case-insensitive literal prefix match (`re.IGNORECASE` against a
lowercase ASCII pattern). -/
def stripPrefixCI (pat s : List Char) : Option (List Char) :=
  match pat, s with
  | [], rest => some rest
  | p :: ps, c :: cs => if c.toLower = p then stripPrefixCI ps cs else none
  | _ :: _, [] => none

/-- One expanded alternative of the URL pattern: the full literal
`http(s)://<host>/` case-insensitively, then `\S+` greedily (at least
one non-whitespace character). -/
def matchURLlit (lit s : List Char) : Option (List Char) :=
  match stripPrefixCI lit s with
  | none => none
  | some s2 =>
    match s2 with
    | c :: _ =>
      if pyIsSpace c then none
      else some (s2.dropWhile fun c2 => !pyIsSpace c2)
    | [] => none

/-- The six expansions of `https?://(?:github|gitee|gitlab)\.com/`.
They are pairwise exclusive on any input (the literals diverge within
the first seven characters), so the match order is immaterial. -/
def URL_LITS : List (List Char) :=
  ["http://github.com/".data, "https://github.com/".data,
   "http://gitee.com/".data, "https://gitee.com/".data,
   "http://gitlab.com/".data, "https://gitlab.com/".data]

/-- Match of the git-host URL pattern at the start of the input. -/
def matchURL (s : List Char) : Option (List Char) :=
  URL_LITS.foldr
    (fun lit acc =>
      match matchURLlit lit s with
      | some r => some r
      | none => acc)
    none

/-- The replacement text of stage 2. -/
def REDACTED : List Char := "[REDACTED]".data

/-- Fuel-indexed `re.sub` scan for git-host URLs. -/
def subRedactF : Nat → List Char → List Char
  | 0, s => s
  | fuel + 1, s =>
    match s with
    | [] => []
    | c :: cs =>
      match matchURL (c :: cs) with
      | some r => REDACTED ++ subRedactF fuel r
      | none => c :: subRedactF fuel cs

/-- Stage 2 of `sanitize_prompt`: redact git-host URLs. -/
def subRedact (s : List Char) : List Char := subRedactF s.length s

/-- Fuel-indexed `re.sub` scan for `\n{3,}` → `"\n\n"`: a maximal run
of three or more newlines (detected by its first three characters) is
replaced by exactly two, and scanning resumes after the run. -/
def collapseF : Nat → List Char → List Char
  | 0, s => s
  | _ + 1, [] => []
  | fuel + 1, c :: cs =>
    if c = '\n' ∧ cs.take 2 = ['\n', '\n'] then
      '\n' :: '\n' :: collapseF fuel ((cs.drop 2).dropWhile fun c2 => c2 = '\n')
    else c :: collapseF fuel cs

/-- Stage 3 of `sanitize_prompt`: collapse newline runs. -/
def collapseNewlines (s : List Char) : List Char := collapseF s.length s

/-- `sanitize_prompt(prompt)`: the three substitution passes followed by
`str.strip()`. -/
def sanitize_prompt (s : List Char) : List Char :=
  pyStrip (collapseNewlines (subRedact (subRepoLink s)))

/-! ## No-match invariants of the redaction scan -/

/-- No suffix of `t` matches the URL pattern (so stage 2 is identity). -/
def NoHit (t : List Char) : Prop := ∀ u, u <:+ t → matchURL u = none

/-! ## The collapsed output has no triple newline -/

/-- No infix `"\n\n\n"` (so stage 3 is identity). -/
def NoTriple (t : List Char) : Prop := ¬ (['\n', '\n', '\n'] <:+: t)

/-! ## Theorems -/

/-! ## Membership lemmas for the snapshot loop -/

/-- A path/mode pair is recorded by the backup loop exactly when the path
is in the ignored list and is a regular file with that mode. -/
theorem backup_collect_mem_fst (isfile : List Char → Bool) (st_mode : List Char → Nat)
    (l : List (List Char)) (p : List Char) (m : Nat) :
    (p, m) ∈ (backup_collect isfile st_mode l).1 ↔
      p ∈ l ∧ isfile p = true ∧ m = st_mode p := by
  induction l with
  | nil => simp [backup_collect]
  | cons q rest ih =>
    by_cases hq : isfile q = true <;>
      simp [backup_collect, hq, ih] <;>
      aesop

/-- A path is copied by the backup loop exactly when it is in the
ignored list and is a regular file. -/
theorem backup_collect_mem_snd (isfile : List Char → Bool) (st_mode : List Char → Nat)
    (l : List (List Char)) (p : List Char) :
    p ∈ (backup_collect isfile st_mode l).2 ↔ p ∈ l ∧ isfile p = true := by
  induction l with
  | nil => simp [backup_collect]
  | cons q rest ih =>
    by_cases hq : isfile q = true <;>
      simp [backup_collect, hq, ih] <;>
      aesop

/-! ## Claim C2 -/

/-- C2: `_is_safe_relpath(relpath)` returns true if and only if
`relpath` is a non-empty string that is not an absolute path, whose
normalized form does not begin with `..`, and whose normalized form is
neither equal to `.git` nor begins with `.git/`; every other input,
including non-string values, yields false. -/
theorem is_safe_relpath_iff (v : PyVal) :
    is_safe_relpath v = true ↔
      ∃ s : List Char, v = .str s ∧ s ≠ [] ∧ isabs s = false ∧
        ¬ (['.', '.'] <+: normpath s) ∧
        normpath s ≠ ['.', 'g', 'i', 't'] ∧
        ¬ (['.', 'g', 'i', 't', '/'] <+: normpath s) := by
  cases v with
  | nonStr => simp [is_safe_relpath]
  | str s =>
    simp only [is_safe_relpath, PyVal.str.injEq, exists_eq_left']
    split_ifs with h1 h2 h3 h4 <;>
      simp_all [not_or, Bool.not_eq_true]
    tauto

/-! ## Claim C10 -/

/-- C10: the agent-created-file cleanup phase of
`_restore_ignored_files` never removes the in-repo sidecar
`.agent_eval_sanitize_meta.json`: the sidecar filename is subtracted
from the removal candidates, so it survives even when it is a
currently-ignored path absent from the snapshot. -/
theorem restore_never_removes_sidecar (current pre_agent_ignored backed_up : List (List Char))
    (islink isfile isdir : List Char → Bool) :
    SANITIZE_SIDECAR ∉
      restore_removed current pre_agent_ignored backed_up islink isfile isdir := by
  intro h
  have h1 := (List.mem_filter.mp h).1
  have h2 := (List.mem_filter.mp h1).2
  simp only [Bool.and_eq_true, decide_eq_true_eq] at h2
  exact h2.2 rfl

/-! ## Claim C1 -/

/-- C1, counterexample: with the sidecar itself among the currently
ignored paths, a tampered-empty `pre_agent_ignored` and an empty
snapshot, the claim predicts removal of every current path, yet the code
removes nothing: the sidecar filename is explicitly exempted. -/
theorem restore_ignored_sidecar_cex :
    SANITIZE_SIDECAR ∈ ([SANITIZE_SIDECAR] : List (List Char)) ∧
    SANITIZE_SIDECAR ∉ ([] : List (List Char)) ∧
    restore_removed [SANITIZE_SIDECAR] [] []
      (fun _ => false) (fun _ => true) (fun _ => false) = [] := by
  refine ⟨List.mem_singleton.mpr rfl, by simp, ?_⟩
  decide

/-- C1, amended: every currently-ignored path other than the sidecar
filename that passes the safe-relpath gate and exists as a file,
directory or symlink, and belongs neither to `pre_agent_ignored` nor to
the set of paths present under `<backup>/ignored/`, is removed; and
every path present under `<backup>/ignored/` is never removed, even when
`pre_agent_ignored` has been tampered to the empty list. -/
theorem restore_ignored_cleanup (current pre_agent_ignored backed_up : List (List Char))
    (islink isfile isdir : List Char → Bool) (p : List Char) :
    (p ∈ current → p ∉ pre_agent_ignored → p ∉ backed_up →
      p ≠ SANITIZE_SIDECAR → is_safe_relpath (.str p) = true →
      (islink p || isfile p || isdir p) = true →
      p ∈ restore_removed current pre_agent_ignored backed_up islink isfile isdir) ∧
    (p ∈ backed_up →
      p ∉ restore_removed current pre_agent_ignored backed_up islink isfile isdir) := by
  constructor
  · intro hc hpre hback hside hsafe hkind
    refine List.mem_filter.mpr ⟨List.mem_filter.mpr ⟨hc, ?_⟩, ?_⟩
    · simp [hpre, hback, hside]
    · simp [hsafe, hkind]
  · intro hback hmem
    have h1 := (List.mem_filter.mp (List.mem_filter.mp hmem).1).2
    simp only [Bool.and_eq_true, decide_eq_true_eq] at h1
    exact h1.1.2 hback

/-- C1, amended, witness: a concrete agent-created temp file is removed
while a concrete backed-up `.env` is not. -/
theorem restore_ignored_cleanup_w :
    "junk.tmp".data ∈
      restore_removed ["junk.tmp".data, ".env".data] [] [".env".data]
        (fun _ => false) (fun _ => true) (fun _ => false) ∧
    ".env".data ∉
      restore_removed ["junk.tmp".data, ".env".data] [] [".env".data]
        (fun _ => false) (fun _ => true) (fun _ => false) :=
  ⟨(restore_ignored_cleanup ["junk.tmp".data, ".env".data] [] [".env".data]
      (fun _ => false) (fun _ => true) (fun _ => false) "junk.tmp".data).1
      (by decide) (by decide) (by decide) (by decide) (by decide) (by decide),
   (restore_ignored_cleanup ["junk.tmp".data, ".env".data] [] [".env".data]
      (fun _ => false) (fun _ => true) (fun _ => false) ".env".data).2
      (by decide)⟩

/-! ## Claim C9 -/

/-- C9: `_backup_ignored_files` records a content copy and an original
mode exactly for those listed ignored paths that are regular files at
snapshot time; any other ignored path (directory, dangling symlink, …)
still appears in the returned `pre_agent_ignored` list but receives
neither a copy nor a mode entry. -/
theorem backup_ignored_files_spec (ignored : List (List Char)) (backup_dir : List Char)
    (isfile : List Char → Bool) (st_mode : List Char → Nat) (p : List Char)
    (hbd : backup_dir ≠ []) :
    (backup_ignored_files ignored backup_dir isfile st_mode).1 = ignored ∧
    ((p, st_mode p) ∈ (backup_ignored_files ignored backup_dir isfile st_mode).2.1 ↔
      p ∈ ignored ∧ isfile p = true) ∧
    (∀ m : Nat, (p, m) ∈ (backup_ignored_files ignored backup_dir isfile st_mode).2.1 →
      m = st_mode p) ∧
    (p ∈ (backup_ignored_files ignored backup_dir isfile st_mode).2.2 ↔
      p ∈ ignored ∧ isfile p = true) := by
  by_cases hig : ignored = []
  · subst hig; simp [backup_ignored_files]
  · simp only [backup_ignored_files, hig, hbd, or_self, false_or, if_neg,
      not_false_eq_true, or_false, if_false, true_and]
    refine ⟨?_, ?_, ?_⟩
    · rw [backup_collect_mem_fst]
      constructor
      · rintro ⟨h1, h2, _⟩; exact ⟨h1, h2⟩
      · rintro ⟨h1, h2⟩; exact ⟨h1, h2, rfl⟩
    · intro m hm
      exact ((backup_collect_mem_fst isfile st_mode ignored p m).mp hm).2.2
    · exact backup_collect_mem_snd isfile st_mode ignored p

/-- C9, witness: with a regular file `.env` and a directory `cache/`
among the ignored paths, only `.env` gets a mode entry and a copy, while
both paths appear in the returned list. -/
theorem backup_ignored_files_spec_w :
    (backup_ignored_files [".env".data, "cache".data] "/tmp/bak".data
        (fun q => decide (q = ".env".data)) (fun _ => 33188)).1 =
      [".env".data, "cache".data] ∧
    (".env".data, 33188) ∈
      (backup_ignored_files [".env".data, "cache".data] "/tmp/bak".data
        (fun q => decide (q = ".env".data)) (fun _ => 33188)).2.1 ∧
    ¬ ("cache".data ∈
      (backup_ignored_files [".env".data, "cache".data] "/tmp/bak".data
        (fun q => decide (q = ".env".data)) (fun _ => 33188)).2.2) :=
  have h1 := backup_ignored_files_spec [".env".data, "cache".data] "/tmp/bak".data
    (fun q => decide (q = ".env".data)) (fun _ => 33188) ".env".data (by decide)
  have h2 := backup_ignored_files_spec [".env".data, "cache".data] "/tmp/bak".data
    (fun q => decide (q = ".env".data)) (fun _ => 33188) "cache".data (by decide)
  ⟨h1.1, h1.2.1.mpr ⟨by decide, by decide⟩,
   fun hc => by
    have := h2.2.2.2.mp hc
    simp at this⟩

/-- A lowercased name with prefix `claude-` has none of the OpenAI
prefixes (they differ in their first character). -/
theorem claude_prefix_excl (m : List Char) (h : ("claude-".data).isPrefixOf m = true) :
    ("gpt-".data.isPrefixOf m || "o1-".data.isPrefixOf m ||
      "deepseek-".data.isPrefixOf m) = false := by
  cases m with
  | nil => exact absurd h (by decide)
  | cons c rest =>
    have h2 : (('c' == c) && ("laude-".data).isPrefixOf rest) = true := h
    have hc : c = 'c' := (beq_iff_eq.mp ((Bool.and_eq_true _ _).mp h2).1).symm
    subst hc
    rfl

/-! ## Claim C8 -/

/-- C8: `get_api_client` returns the Anthropic client for explicit
provider `anthropic` and the OpenAI-compatible client for explicit
`openai`; with no explicit provider it infers from the lowercased model
name: prefixes `gpt-`, `o1-`, `deepseek-` → OpenAI, `claude-` →
Anthropic, and any other name → OpenAI with a warning. -/
theorem get_api_client_spec (model_name : List Char) :
    get_api_client model_name (some "anthropic".data) = .ok (.anthropicClient, false) ∧
    get_api_client model_name (some "openai".data) = .ok (.openaiClient, false) ∧
    (("gpt-".data.isPrefixOf (pyLower model_name) ||
      "o1-".data.isPrefixOf (pyLower model_name) ||
      "deepseek-".data.isPrefixOf (pyLower model_name)) = true →
      get_api_client model_name none = .ok (.openaiClient, false)) ∧
    ("claude-".data.isPrefixOf (pyLower model_name) = true →
      get_api_client model_name none = .ok (.anthropicClient, false)) ∧
    (("gpt-".data.isPrefixOf (pyLower model_name) ||
      "o1-".data.isPrefixOf (pyLower model_name) ||
      "deepseek-".data.isPrefixOf (pyLower model_name)) = false →
      "claude-".data.isPrefixOf (pyLower model_name) = false →
      get_api_client model_name none = .ok (.openaiClient, true)) := by
  refine ⟨rfl, rfl, ?_, ?_, ?_⟩
  · intro h
    simp [get_api_client, infer_client, h]
  · intro h
    simp [get_api_client, infer_client, h, claude_prefix_excl _ h]
  · intro h1 h2
    simp [get_api_client, infer_client, h1, h2]

/-- C8, witness: the four inference outcomes at concrete model names and
the two explicit-provider outcomes. -/
theorem get_api_client_spec_w :
    get_api_client "gpt-4o".data (some "anthropic".data) = .ok (.anthropicClient, false) ∧
    get_api_client "claude-3".data (some "openai".data) = .ok (.openaiClient, false) ∧
    get_api_client "GPT-4o".data none = .ok (.openaiClient, false) ∧
    get_api_client "Claude-3-opus".data none = .ok (.anthropicClient, false) ∧
    get_api_client "mistral-large".data none = .ok (.openaiClient, true) :=
  ⟨(get_api_client_spec "gpt-4o".data).1,
   (get_api_client_spec "claude-3".data).2.1,
   (get_api_client_spec "GPT-4o".data).2.2.1 (by decide),
   (get_api_client_spec "Claude-3-opus".data).2.2.2.1 (by decide),
   (get_api_client_spec "mistral-large".data).2.2.2.2 (by decide) (by decide)⟩

/-! ## Claim C6 -/

/-- C6: the run handler exits 0 when a final patch was produced and
restoration succeeded, 1 when no final patch was produced (and
restoration succeeded), and 2 whenever the final restore or the
partial-setup cleanup failed — even when a valid final patch exists:
restore failure always trumps patch failure. -/
theorem handler_exit_code_spec (final_patch : List Char)
    (setup_done mutated restore_ok cleanup_ok : Bool) :
    (handler_restore_failed setup_done mutated restore_ok cleanup_ok = true →
      handler_exit_code final_patch
        (handler_restore_failed setup_done mutated restore_ok cleanup_ok) = 2) ∧
    (handler_restore_failed setup_done mutated restore_ok cleanup_ok = false →
      final_patch ≠ [] →
      handler_exit_code final_patch
        (handler_restore_failed setup_done mutated restore_ok cleanup_ok) = 0) ∧
    (handler_restore_failed setup_done mutated restore_ok cleanup_ok = false →
      final_patch = [] →
      handler_exit_code final_patch
        (handler_restore_failed setup_done mutated restore_ok cleanup_ok) = 1) ∧
    handler_restore_failed setup_done mutated restore_ok cleanup_ok =
      ((setup_done && !restore_ok) || (!setup_done && mutated && !cleanup_ok)) := by
  refine ⟨?_, ?_, ?_, ?_⟩
  · intro h; simp [handler_exit_code, h]
  · intro h hp; simp [handler_exit_code, h, hp]
  · intro h hp; simp [handler_exit_code, h, hp]
  · cases setup_done <;> cases mutated <;> cases restore_ok <;> cases cleanup_ok <;> rfl

/-- C6, witness: a non-empty valid patch with a failed restore still
exits 2; a successful restore exits 0 with a patch and 1 without. -/
theorem handler_exit_code_spec_w :
    handler_exit_code "diff --git a/f b/f".data
      (handler_restore_failed true false false true) = 2 ∧
    handler_exit_code "diff --git a/f b/f".data
      (handler_restore_failed true false true true) = 0 ∧
    handler_exit_code [] (handler_restore_failed true false true true) = 1 :=
  ⟨(handler_exit_code_spec "diff --git a/f b/f".data true false false true).1 (by decide),
   (handler_exit_code_spec "diff --git a/f b/f".data true false true true).2.1
     (by decide) (by decide),
   (handler_exit_code_spec [] true false true true).2.2.1 (by decide) (by decide)⟩

/-! ## Claim C3 -/

/-- C3, counterexample: a block for the file
`b/.agent_eval_sanitize_meta.json` — whose path merely contains the
sidecar name as a substring and is not equal to it — IS filtered out
(the right-stripped header ends with `b/` + sidecar), so the claim's
"never filtered out" universal fails. -/
theorem get_patch_internal_cex :
    "b/.agent_eval_sanitize_meta.json".data ≠ SANITIZE_SIDECAR ∧
    containsSub "b/.agent_eval_sanitize_meta.json".data SANITIZE_SIDECAR = true ∧
    get_patch_output
      ("diff --git a/b/.agent_eval_sanitize_meta.json b/b/.agent_eval_sanitize_meta.json\n--- a/b/.agent_eval_sanitize_meta.json\n+++ b/b/.agent_eval_sanitize_meta.json\n@@ -1 +1 @@\n-x\n+y\n".data)
      = [] :=
  ⟨by decide, by decide, by decide⟩

/-- C3, amended: a block touches file `F` iff its header contains
`a/F b/` or its right-stripped header ends with `b/F`; every `diff
--git` header surviving the filter is non-internal (in particular the
sidecar's own block never appears); a name that merely extends the
sidecar name on the right, such as `.agent_eval_sanitize_meta.json-backup`,
is never filtered — though a path like `b/.agent_eval_sanitize_meta.json`
does match the end-anchored fragment and is filtered. -/
theorem get_patch_internal_filter (lines : List (List Char)) (skip : Bool) (l : List Char) :
    (is_internal_diff l =
      (containsSub l ("a/".data ++ SANITIZE_SIDECAR ++ " b/".data) ||
        ("b/".data ++ SANITIZE_SIDECAR).isSuffixOf (pyRstrip l))) ∧
    (l ∈ strip_internal_loop lines skip →
      ("diff --git ".data).isPrefixOf l = true → is_internal_diff l = false) ∧
    is_internal_diff
      "diff --git a/.agent_eval_sanitize_meta.json b/.agent_eval_sanitize_meta.json".data
      = true ∧
    is_internal_diff
      "diff --git a/.agent_eval_sanitize_meta.json-backup b/.agent_eval_sanitize_meta.json-backup".data
      = false := by
  refine ⟨by simp [is_internal_diff, INTERNAL_FILES], ?_, by decide, by decide⟩
  induction lines generalizing skip with
  | nil => intro h; exact absurd h (List.not_mem_nil l)
  | cons x xs ih =>
    intro hmem hpfx
    simp only [strip_internal_loop] at hmem
    by_cases hx : ("diff --git ".data).isPrefixOf x = true
    · simp only [hx, if_pos] at hmem
      by_cases hint : is_internal_diff x = true
      · simp only [hint, if_pos] at hmem
        exact ih _ hmem hpfx
      · have hint' : is_internal_diff x = false := by
          cases h : is_internal_diff x
          · rfl
          · exact absurd h hint
        simp only [hint', Bool.false_eq_true, if_neg, not_false_eq_true] at hmem
        rcases List.mem_cons.mp hmem with h | h
        · rw [h]; exact hint'
        · exact ih _ h hpfx
    · have hx' : ("diff --git ".data).isPrefixOf x = false := by
        cases h : ("diff --git ".data).isPrefixOf x
        · rfl
        · exact absurd h hx
      simp only [hx', Bool.false_eq_true, if_neg, not_false_eq_true] at hmem
      cases skip with
      | true =>
        simp only [if_pos] at hmem
        exact ih _ hmem hpfx
      | false =>
        simp only [Bool.false_eq_true, if_neg, not_false_eq_true] at hmem
        rcases List.mem_cons.mp hmem with h | h
        · subst h; exact absurd hpfx (by rw [hx']; exact Bool.false_ne_true)
        · exact ih _ h hpfx

/-- C3, amended, witness: in a patch holding a sidecar block and an
ordinary block, the ordinary header survives and is non-internal. -/
theorem get_patch_internal_filter_w :
    "diff --git a/x b/x\n".data ∈
      strip_internal_loop
        ["diff --git a/.agent_eval_sanitize_meta.json b/.agent_eval_sanitize_meta.json\n".data,
         "-old\n".data,
         "diff --git a/x b/x\n".data,
         "-a\n".data] false ∧
    ("diff --git ".data).isPrefixOf "diff --git a/x b/x\n".data = true ∧
    is_internal_diff "diff --git a/x b/x\n".data = false :=
  ⟨by decide, by decide,
   (get_patch_internal_filter
      ["diff --git a/.agent_eval_sanitize_meta.json b/.agent_eval_sanitize_meta.json\n".data,
       "-old\n".data,
       "diff --git a/x b/x\n".data,
       "-a\n".data] false "diff --git a/x b/x\n".data).2.1 (by decide) (by decide)⟩

/-- A block passes `validate_block` exactly when the amended per-block
condition holds. -/
theorem validate_block_none_iff (i : Nat) (b : List (List Char)) :
    validate_block i b = none ↔ amended_block_ok b = true := by
  by_cases he : (block_hunks b).isEmpty = true
  · by_cases hm : (block_is_rename b || block_is_mode_change b || block_is_binary b) = true
    · simp [validate_block, amended_block_ok, he, hm]
    · have hm' := Bool.not_eq_true _ ▸ hm
      simp only [validate_block, amended_block_ok, he, hm', Bool.and_false, if_pos, if_neg,
        Bool.false_eq_true, not_false_eq_true]
      split_ifs <;> simp
  · have he' := Bool.not_eq_true _ ▸ he
    simp only [validate_block, amended_block_ok, he', Bool.false_and, if_neg,
      Bool.false_eq_true, not_false_eq_true]
    split_ifs with h1 h2 <;>
      simp_all [Bool.or_eq_true, Bool.not_eq_true]
    rintro hmi hpl
    rcases h1 with h | h
    · exact absurd hmi (by simp [h])
    · exact absurd hpl (by simp [h])

/-- The sequential scan fails on no block exactly when every block
passes the amended condition. -/
theorem first_block_failure_none_iff (bs : List (List (List Char))) (i : Nat) :
    first_block_failure i bs = none ↔ bs.all amended_block_ok = true := by
  induction bs generalizing i with
  | nil => simp [first_block_failure]
  | cons b rest ih =>
    simp only [first_block_failure, List.all_cons, Bool.and_eq_true]
    cases hv : validate_block i b with
    | some r =>
      constructor
      · intro h; exact absurd h (by simp)
      · rintro ⟨h1, _⟩
        exact absurd ((validate_block_none_iff i b).mpr h1) (by simp [hv])
    | none =>
      simp [ih (i + 1), (validate_block_none_iff i b).mp hv]

/-! ## Claim C4 -/

/-- C4, counterexample: a block whose only hunk is followed by an
`index ` line before its content line satisfies every condition of the
claim as written (has `--- `, `+++ `, a hunk header, and a content line
after it), yet `validate_patch` rejects it — the `index ` line leaves
hunk scanning, so no content is counted. -/
theorem validate_patch_claim_cex :
    validate_patch_claim_ok
      "diff --git a/f b/f\n--- a/f\n+++ b/f\n@@ -1 +1 @@\nindex 1\n x\n".data = true ∧
    (validate_patch
      "diff --git a/f b/f\n--- a/f\n+++ b/f\n@@ -1 +1 @@\nindex 1\n x\n".data).1 = false :=
  ⟨by decide, by decide⟩

/-- C4, amended: `validate_patch` splits at `diff --git ` lines, fails
with "empty patch" on whitespace-only input and with "no 'diff --git'
header found" when no block exists; a block with no hunk headers is
accepted iff metadata-only (rename pair, mode pair, or Binary line);
every other block needs a `--- ` line, a `+++ ` line, a hunk header
matching the anchored pattern, and a content line counted by the
`in_hunk` state machine (hunk headers enable counting,
`diff --git `/`--- `/`+++ `/`index `/`new file`/`deleted file` lines
disable it), else the block's index and a reason are reported. -/
theorem validate_patch_amended_spec :
    (∀ patch : List Char,
      (validate_patch patch).1 = validate_patch_amended_ok patch) ∧
    (∀ patch : List Char, pyStrip patch = [] →
      validate_patch patch = (false, "empty patch".data)) ∧
    (∀ patch : List Char, pyStrip patch ≠ [] →
      mkBlocks (pySplitlines (pyStrip patch)) = [] →
      validate_patch patch = (false, "no 'diff --git' header found".data)) := by
  refine ⟨?_, ?_, ?_⟩
  · intro patch
    by_cases hs : pyStrip patch = []
    · simp [validate_patch, validate_patch_amended_ok, hs]
    · by_cases hb : mkBlocks (pySplitlines (pyStrip patch)) = []
      · simp [validate_patch, validate_patch_amended_ok, hs, hb]
      · simp only [validate_patch, validate_patch_amended_ok, hs, if_neg,
          List.isEmpty_eq_true, hb, Bool.not_false, Bool.true_and,
          List.isEmpty_iff]
        cases hf : first_block_failure 1 (mkBlocks (pySplitlines (pyStrip patch))) with
        | some r =>
          have : ¬ (mkBlocks (pySplitlines (pyStrip patch))).all amended_block_ok = true := by
            intro h
            exact absurd ((first_block_failure_none_iff _ 1).mpr h) (by simp [hf])
          simp only [Bool.not_eq_true] at this
          simp [this]
        | none =>
          simp only [(first_block_failure_none_iff _ 1).mp hf]
          simp [hs, hb]
  · intro patch hs
    simp [validate_patch, hs]
  · intro patch hs hb
    simp [validate_patch, hs, hb]

/-- C4, amended, witness: the three conjuncts applied at a valid
one-block patch, the empty input, and a headerless input. -/
theorem validate_patch_amended_spec_w :
    (validate_patch "diff --git a/f b/f\n--- a/f\n+++ b/f\n@@ -1 +1 @@\n-x\n+y\n".data).1 =
      validate_patch_amended_ok
        "diff --git a/f b/f\n--- a/f\n+++ b/f\n@@ -1 +1 @@\n-x\n+y\n".data ∧
    validate_patch "  \n ".data = (false, "empty patch".data) ∧
    validate_patch "hello world".data = (false, "no 'diff --git' header found".data) :=
  ⟨validate_patch_amended_spec.1
      "diff --git a/f b/f\n--- a/f\n+++ b/f\n@@ -1 +1 @@\n-x\n+y\n".data,
   validate_patch_amended_spec.2.1 "  \n ".data (by decide),
   validate_patch_amended_spec.2.2 "hello world".data (by decide) (by decide)⟩

/-! ## Claim C5 -/

/-- C5: a `gt_patch` argument that does not resolve to an existing file
makes `setup_starting_point` raise `FileNotFoundError` before any
repository-mutating git command: the returned repository state is
exactly the input state and the mutated flag is still empty. -/
theorem setup_missing_patch_unchanged {ρ : Type} (env : GitEnv ρ) (st0 : ρ)
    (branch : Option (List Char)) (p : List Char)
    (repo_url : Option (List Char)) (sanitize : Bool)
    (hmiss : env.isfile (env.abspath p) = false) :
    setup_starting_point env st0 branch (some p) repo_url sanitize [] =
      (.error (.fileNotFound (env.abspath p)), st0, []) := by
  simp [setup_starting_point, hmiss]

/-- C5, witness: in the demonstration environment the missing-patch call
errors out with the state still `0` and the flag still empty. -/
theorem setup_missing_patch_unchanged_w :
    demoGitEnv.isfile (demoGitEnv.abspath "gt.patch".data) = false ∧
    setup_starting_point demoGitEnv 0 (some "dev".data) (some "gt.patch".data)
        none true [] =
      (.error (.fileNotFound (demoGitEnv.abspath "gt.patch".data)), 0, []) :=
  ⟨rfl, setup_missing_patch_unchanged demoGitEnv 0 (some "dev".data)
    "gt.patch".data none true rfl⟩

/-! ## List decomposition helpers

Small append/prefix/suffix/infix decomposition lemmas used by the
idempotence analysis of `sanitize_prompt`. -/

/-- A suffix of `a ++ b` is a suffix of `b` or extends it by a
non-empty suffix of `a`. -/
theorem suffix_append_cases {α : Type} {u a b : List α} (h : u <:+ a ++ b) :
    u <:+ b ∨ ∃ d, d ≠ [] ∧ d <:+ a ∧ u = d ++ b := by
  obtain ⟨w, hw⟩ := h
  rcases List.append_eq_append_iff.mp hw with ⟨x, hx1, hx2⟩ | ⟨c, hc1, hc2⟩
  · cases x with
    | nil =>
      left
      simp only [List.nil_append] at hx2
      exact hx2 ▸ List.suffix_refl b
    | cons e es => exact Or.inr ⟨e :: es, by simp, ⟨w, hx1.symm⟩, hx2⟩
  · left
    exact ⟨c, hc2.symm⟩

/-- A prefix of `a ++ b` is a prefix of `a` or is `a` extended by a
prefix of `b`. -/
theorem prefix_append_cases {α : Type} {q a b : List α} (h : q <+: a ++ b) :
    q <+: a ∨ ∃ q2, q = a ++ q2 ∧ q2 <+: b := by
  obtain ⟨w, hw⟩ := h
  rcases List.append_eq_append_iff.mp hw with ⟨x, hx1, _⟩ | ⟨c, hc1, hc2⟩
  · left
    exact ⟨x, hx1.symm⟩
  · right
    exact ⟨c, hc1, ⟨w, hc2.symm⟩⟩

/-- An infix of `a ++ b` lies in `a`, lies in `b`, or straddles the
boundary as a non-empty suffix of `a` glued to a prefix of `b`. -/
theorem infix_append_cases {α : Type} {l a b : List α} (h : l <:+: a ++ b) :
    l <:+: a ∨ l <:+: b ∨
      ∃ l1 l2, l = l1 ++ l2 ∧ l1 ≠ [] ∧ l1 <:+ a ∧ l2 <+: b := by
  obtain ⟨u, v, huv⟩ := h
  rcases List.append_eq_append_iff.mp huv with ⟨x, hx1, _⟩ | ⟨c, hc1, hc2⟩
  · left
    exact ⟨u, x, hx1.symm⟩
  · rcases List.append_eq_append_iff.mp hc1 with ⟨y, hy1, hy2⟩ | ⟨z, _, hz2⟩
    · by_cases hcnil : c = []
      · subst hcnil
        left
        refine ⟨u, [], ?_⟩
        rw [List.append_nil] at hy2 ⊢
        rw [← hy2] at hy1
        exact hy1.symm
      · cases y with
        | nil =>
          right; left
          simp only [List.nil_append] at hy2
          have hpb : l <+: b := by
            rw [hy2]
            exact ⟨v, hc2.symm⟩
          exact hpb.isInfix
        | cons e es =>
          exact Or.inr (Or.inr ⟨e :: es, c, hy2, by simp, ⟨u, hy1.symm⟩, ⟨v, hc2.symm⟩⟩)
    · right; left
      exact ⟨z, v, by rw [hc2, hz2]⟩

/-- A non-empty prefix shares its head with the longer list. -/
theorem head?_of_prefix {α : Type} {q u : List α} (h : q <+: u) (hne : q ≠ []) :
    q.head? = u.head? := by
  obtain ⟨w, hw⟩ := h
  cases q with
  | nil => exact absurd rfl hne
  | cons c cs => rw [← hw]; rfl

/-- A non-empty suffix shares its last element with the longer list. -/
theorem getLast?_of_suffix {α : Type} {d a : List α} (h : d <:+ a) (hne : d ≠ []) :
    d.getLast? = a.getLast? := by
  obtain ⟨w, hw⟩ := h
  subst hw
  rw [← List.head?_reverse, ← List.head?_reverse, List.reverse_append]
  cases hd : d.reverse with
  | nil => exact absurd (by simpa using hd) hne
  | cons x xs => rfl

/-- Appending on the right preserves the suffix relation. -/
theorem suffix_append_both {α : Type} {u p : List α} (h : u <:+ p) (w : List α) :
    u ++ w <:+ p ++ w := by
  obtain ⟨t, ht⟩ := h
  exact ⟨t, by rw [← List.append_assoc, ht]⟩

/-- The head of a `dropWhile` result fails the predicate. -/
theorem dropWhile_head_false {α : Type} (p : α → Bool) (l : List α) {c : α} {t : List α}
    (h : l.dropWhile p = c :: t) : p c = false := by
  induction l with
  | nil => simp [List.dropWhile] at h
  | cons a l ih =>
    rw [List.dropWhile_cons] at h
    split_ifs at h with ha
    · exact ih h
    · cases h
      exact Bool.not_eq_true _ ▸ ha

/-- `dropWhile` is idempotent. -/
theorem dropWhile_idem {α : Type} (p : α → Bool) (l : List α) :
    (l.dropWhile p).dropWhile p = l.dropWhile p := by
  cases h : l.dropWhile p with
  | nil => rfl
  | cons c t =>
    have hc := dropWhile_head_false p l h
    rw [List.dropWhile_cons, if_neg (by simp [hc])]

/-! ## Facts about the Python string primitives -/

/-- `pyLstrip` yields a suffix of its input. -/
theorem pyLstrip_suffix_of_self (s : List Char) : pyLstrip s <:+ s :=
  List.dropWhile_suffix _

/-- `pyRstrip` yields a prefix of its input. -/
theorem pyRstrip_prefix_of_self (s : List Char) : pyRstrip s <+: s := by
  have h1 : s.reverse.dropWhile pyIsSpace <:+ s.reverse := List.dropWhile_suffix _
  have h2 := List.reverse_prefix.mpr h1
  rwa [List.reverse_reverse] at h2

/-- `pyRstrip` removes a whitespace-only tail. -/
theorem pyRstrip_decomp (s : List Char) :
    ∃ W, s = pyRstrip s ++ W ∧ ∀ x ∈ W, pyIsSpace x = true := by
  refine ⟨(s.reverse.takeWhile pyIsSpace).reverse, ?_, ?_⟩
  · show s = pyRstrip s ++ (s.reverse.takeWhile pyIsSpace).reverse
    unfold pyRstrip
    rw [← List.reverse_append, List.takeWhile_append_dropWhile, List.reverse_reverse]
  · intro x hx
    rw [List.mem_reverse] at hx
    exact List.mem_takeWhile_imp hx

/-- `pyStrip` yields an infix of its input. -/
theorem pyStrip_infix_of_self (s : List Char) : pyStrip s <:+: s :=
  (pyRstrip_prefix_of_self (pyLstrip s)).isInfix.trans (pyLstrip_suffix_of_self s).isInfix

/-- `pyLstrip` is idempotent. -/
theorem pyLstrip_idem (s : List Char) : pyLstrip (pyLstrip s) = pyLstrip s :=
  dropWhile_idem _ s

/-- `pyRstrip` is idempotent. -/
theorem pyRstrip_idem (s : List Char) : pyRstrip (pyRstrip s) = pyRstrip s := by
  show ((pyRstrip s).reverse.dropWhile pyIsSpace).reverse = pyRstrip s
  unfold pyRstrip
  rw [List.reverse_reverse, dropWhile_idem]

/-- Left-stripping after a right strip of a left-stripped list changes
nothing: the head is already non-whitespace. -/
theorem pyLstrip_pyRstrip_pyLstrip (s : List Char) :
    pyLstrip (pyRstrip (pyLstrip s)) = pyRstrip (pyLstrip s) := by
  cases h : pyRstrip (pyLstrip s) with
  | nil => rfl
  | cons c t =>
    have hpre := pyRstrip_prefix_of_self (pyLstrip s)
    rw [h] at hpre
    have hh := head?_of_prefix hpre (by simp)
    cases hl : pyLstrip s with
    | nil =>
      rw [hl] at hh
      simp at hh
    | cons c2 t2 =>
      rw [hl] at hh
      simp only [List.head?_cons, Option.some.injEq] at hh
      have hc2 := dropWhile_head_false pyIsSpace s hl
      show List.dropWhile pyIsSpace (c :: t) = c :: t
      rw [List.dropWhile_cons, if_neg (by simp [hh, hc2])]

/-- `pyStrip` is idempotent. -/
theorem pyStrip_idem (s : List Char) : pyStrip (pyStrip s) = pyStrip s := by
  show pyRstrip (pyLstrip (pyRstrip (pyLstrip s))) = pyRstrip (pyLstrip s)
  rw [pyLstrip_pyRstrip_pyLstrip, pyRstrip_idem]

/-! ## Characterizations of the literal matchers -/

/-- `stripPrefixExact` succeeds exactly on a literal decomposition. -/
theorem stripPrefixExact_eq_some {pat s r : List Char} :
    stripPrefixExact pat s = some r ↔ s = pat ++ r := by
  induction pat generalizing s with
  | nil => simp [stripPrefixExact, eq_comm]
  | cons p ps ih =>
    cases s with
    | nil => simp [stripPrefixExact]
    | cons c cs =>
      simp only [stripPrefixExact, List.cons_append, List.cons.injEq]
      by_cases hc : c = p
      · subst hc
        simp [ih]
      · simp [hc]

/-- `stripPrefixCI` succeeds exactly on a case-folded decomposition. -/
theorem stripPrefixCI_eq_some {pat s r : List Char} :
    stripPrefixCI pat s = some r ↔
      ∃ pre, s = pre ++ r ∧ pre.map Char.toLower = pat := by
  induction pat generalizing s with
  | nil =>
    simp only [stripPrefixCI, Option.some.injEq]
    constructor
    · intro h
      exact ⟨[], by simp [h], rfl⟩
    · rintro ⟨pre, h1, h2⟩
      have hp : pre = [] := List.map_eq_nil_iff.mp h2
      subst hp
      simpa using h1
  | cons p ps ih =>
    cases s with
    | nil =>
      simp only [stripPrefixCI]
      constructor
      · intro h
        cases h
      · rintro ⟨pre, h1, h2⟩
        cases pre with
        | nil => simp at h2
        | cons d pre2 => simp at h1
    | cons c cs =>
      simp only [stripPrefixCI]
      by_cases hc : c.toLower = p
      · rw [if_pos hc, ih]
        constructor
        · rintro ⟨pre, h1, h2⟩
          exact ⟨c :: pre, by simp [h1], by simp [h2, hc]⟩
        · rintro ⟨pre, h1, h2⟩
          cases pre with
          | nil => simp at h2
          | cons d pre2 =>
            simp only [List.map_cons, List.cons.injEq] at h2
            simp only [List.cons_append, List.cons.injEq] at h1
            exact ⟨pre2, h1.2, h2.2⟩
      · rw [if_neg hc]
        constructor
        · intro h
          cases h
        · rintro ⟨pre, h1, h2⟩
          cases pre with
          | nil => simp at h2
          | cons d pre2 =>
            simp only [List.map_cons, List.cons.injEq] at h2
            simp only [List.cons_append, List.cons.injEq] at h1
            exact absurd (h1.1 ▸ h2.1) hc

/-- `matchURLlit` succeeds exactly on a case-folded literal followed by
a non-whitespace character, consuming the maximal `\S+` run. -/
theorem matchURLlit_eq_some_iff {lit s r : List Char} :
    matchURLlit lit s = some r ↔
      ∃ pre d rest, s = pre ++ d :: rest ∧ pre.map Char.toLower = lit ∧
        pyIsSpace d = false ∧
        r = (d :: rest).dropWhile (fun c => !pyIsSpace c) := by
  unfold matchURLlit
  constructor
  · intro h
    cases hst : stripPrefixCI lit s with
    | none =>
      rw [hst] at h
      cases h
    | some s2 =>
      rw [hst] at h
      cases s2 with
      | nil =>
        dsimp only at h
        cases h
      | cons d rest =>
        dsimp only at h
        by_cases hd : pyIsSpace d = true
        · rw [if_pos hd] at h
          cases h
        · have hd2 : pyIsSpace d = false := Bool.not_eq_true _ ▸ hd
          rw [if_neg hd] at h
          obtain ⟨pre, h1, h2⟩ := stripPrefixCI_eq_some.mp hst
          cases h
          exact ⟨pre, d, rest, h1, h2, hd2, rfl⟩
  · rintro ⟨pre, d, rest, h1, h2, h3, h4⟩
    rw [stripPrefixCI_eq_some.mpr ⟨pre, h1, h2⟩]
    dsimp only
    rw [if_neg (by simp [h3]), h4]

/-! ## Facts about the URL matcher -/

/-- Elimination for the alternative fold: a successful match comes from
one of the listed literals. -/
theorem urlFold_some_elim {lits : List (List Char)} {s r : List Char}
    (h : lits.foldr (fun lit acc =>
        match matchURLlit lit s with
        | some r2 => some r2
        | none => acc) none = some r) :
    ∃ lit, lit ∈ lits ∧ matchURLlit lit s = some r := by
  induction lits with
  | nil => cases h
  | cons l ls ih =>
    rw [List.foldr_cons] at h
    cases hm : matchURLlit l s with
    | some r2 =>
      simp only [hm] at h
      cases h
      exact ⟨l, List.mem_cons_self _ _, hm⟩
    | none =>
      simp only [hm] at h
      obtain ⟨lit, h1, h2⟩ := ih h
      exact ⟨lit, List.mem_cons_of_mem _ h1, h2⟩

/-- Introduction for the alternative fold: any matching literal makes
the fold succeed. -/
theorem urlFold_isSome_intro {lits : List (List Char)} {s lit : List Char}
    (hmem : lit ∈ lits) (hsome : (matchURLlit lit s).isSome = true) :
    (lits.foldr (fun lit acc =>
        match matchURLlit lit s with
        | some r2 => some r2
        | none => acc) none).isSome = true := by
  induction lits with
  | nil => cases hmem
  | cons l ls ih =>
    rw [List.foldr_cons]
    cases hm : matchURLlit l s with
    | some r2 => simp [hm]
    | none =>
      simp only [hm]
      rcases List.mem_cons.mp hmem with he | he
      · subst he
        rw [hm] at hsome
        simp at hsome
      · exact ih he

/-- A successful `matchURL` comes from one of the six literals. -/
theorem matchURL_some_elim {s r : List Char} (h : matchURL s = some r) :
    ∃ lit, lit ∈ URL_LITS ∧ matchURLlit lit s = some r :=
  urlFold_some_elim h

/-- Any of the six literals matching makes `matchURL` succeed. -/
theorem matchURL_isSome_intro {s lit : List Char} (hmem : lit ∈ URL_LITS)
    (hsome : (matchURLlit lit s).isSome = true) : (matchURL s).isSome = true :=
  urlFold_isSome_intro hmem hsome

/-- The six URL literals are non-empty. -/
theorem URL_LITS_ne_nil : ∀ lit ∈ URL_LITS, lit ≠ [] := by decide

/-- The six URL literals all start with `h`. -/
theorem URL_LITS_head : ∀ lit ∈ URL_LITS, lit.head? = some 'h' := by decide

/-- The six URL literals contain no newline. -/
theorem URL_LITS_no_newline : ∀ lit ∈ URL_LITS, '\n' ∉ lit := by decide

/-- The six URL literals contain no `[`. -/
theorem URL_LITS_no_bracket : ∀ lit ∈ URL_LITS, '[' ∉ lit := by decide

/-- No character of `[REDACTED]` case-folds to `h`. -/
theorem REDACTED_no_h : ∀ c ∈ REDACTED, c.toLower ≠ 'h' := by decide

/-- `[REDACTED]` starts with `[`. -/
theorem REDACTED_head : REDACTED.head? = some '[' := by decide

/-- `[REDACTED]` is not empty. -/
theorem REDACTED_ne_nil : REDACTED ≠ [] := by decide

/-- A successful URL match starts with a character folding to `h`. -/
theorem matchURL_head_h {c : Char} {cs r : List Char}
    (h : matchURL (c :: cs) = some r) : c.toLower = 'h' := by
  obtain ⟨lit, hmem, hlit⟩ := matchURL_some_elim h
  obtain ⟨pre, d, rest, h1, h2, _, _⟩ := matchURLlit_eq_some_iff.mp hlit
  cases pre with
  | nil =>
    have hl : lit = [] := by simpa using h2.symm
    exact absurd hl (URL_LITS_ne_nil lit hmem)
  | cons p0 ps =>
    simp only [List.cons_append, List.cons.injEq] at h1
    have hh := URL_LITS_head lit hmem
    rw [← h2] at hh
    simp only [List.map_cons, List.head?_cons, Option.some.injEq] at hh
    rw [h1.1]
    exact hh

/-- A character that does not fold to `h` never starts a match. -/
theorem matchURL_none_of_head {c : Char} (cs : List Char) (h : c.toLower ≠ 'h') :
    matchURL (c :: cs) = none := by
  cases hm : matchURL (c :: cs) with
  | none => rfl
  | some r => exact absurd (matchURL_head_h hm) h

/-- The empty string has no URL match. -/
theorem matchURL_nil : matchURL ([] : List Char) = none := by decide

/-- A successful match returns a strictly shorter suffix. -/
theorem matchURL_suffix_lt {s r : List Char} (h : matchURL s = some r) :
    r <:+ s ∧ r.length < s.length := by
  obtain ⟨lit, hmem, hlit⟩ := matchURL_some_elim h
  obtain ⟨pre, d, rest, h1, h2, h3, h4⟩ := matchURLlit_eq_some_iff.mp hlit
  have hr2 : r = rest.dropWhile (fun c => !pyIsSpace c) := by
    rw [h4, List.dropWhile_cons, if_pos (by simp [h3])]
  constructor
  · subst h1
    have hsfx : r <:+ rest := hr2 ▸ List.dropWhile_suffix _
    obtain ⟨w, hw⟩ := hsfx
    exact ⟨pre ++ d :: w, by rw [← hw]; simp⟩
  · have hlen : r.length ≤ rest.length := by
      rw [hr2]
      exact (List.dropWhile_suffix _).length_le
    subst h1
    simp only [List.length_append, List.length_cons]
    omega

/-- Extending the input on the right preserves a successful match. -/
theorem matchURL_isSome_append {s b : List Char}
    (h : (matchURL s).isSome = true) : (matchURL (s ++ b)).isSome = true := by
  cases hm : matchURL s with
  | none =>
    rw [hm] at h
    simp at h
  | some r =>
    obtain ⟨lit, hmem, hlit⟩ := matchURL_some_elim hm
    obtain ⟨pre, d, rest, h1, h2, h3, _⟩ := matchURLlit_eq_some_iff.mp hlit
    apply matchURL_isSome_intro hmem
    have hnew : matchURLlit lit (s ++ b) =
        some ((d :: (rest ++ b)).dropWhile (fun c => !pyIsSpace c)) :=
      matchURLlit_eq_some_iff.mpr ⟨pre, d, rest ++ b, by rw [h1]; simp, h2, h3, rfl⟩
    rw [hnew]
    rfl

/-- Whitespace characters do not case-fold to `h`. -/
theorem pyIsSpace_toLower_ne_h {e : Char} (h : pyIsSpace e = true) :
    e.toLower ≠ 'h' := by
  simp only [pyIsSpace, Bool.or_eq_true, decide_eq_true_eq] at h
  rcases h with ((((h | h) | h) | h) | h) | h <;> subst h <;> decide

/-- A character folding to `h` is not whitespace. -/
theorem head_h_not_space {e : Char} (h : e.toLower = 'h') :
    pyIsSpace e = false := by
  cases hsp : pyIsSpace e
  · rfl
  · exact absurd h (pyIsSpace_toLower_ne_h hsp)

/-- The replacement text keeps `[` in front of whatever follows. -/
theorem REDACTED_append_head (X : List Char) :
    (REDACTED ++ X).head? = some '[' := rfl

/-- Decomposition of the redaction scan: either nothing matched and the
output is the input, or the output splits at the first replacement into
an unchanged prefix of the input, the replacement text, and a tail,
with the input continuing after that prefix by a matching position. -/
theorem subRedactF_decomp : ∀ (fuel : Nat) (t : List Char), t.length ≤ fuel →
    subRedactF fuel t = t ∨
      ∃ p t2 X, t = p ++ t2 ∧ subRedactF fuel t = p ++ REDACTED ++ X ∧
        (matchURL t2).isSome = true := by
  intro fuel
  induction fuel with
  | zero => exact fun t _ => Or.inl rfl
  | succ f ih =>
    intro t ht
    cases t with
    | nil => exact Or.inl rfl
    | cons c cs =>
      cases hm : matchURL (c :: cs) with
      | some r =>
        right
        refine ⟨[], c :: cs, subRedactF f r, rfl, ?_, by rw [hm]; rfl⟩
        show subRedactF (f + 1) (c :: cs) = [] ++ REDACTED ++ subRedactF f r
        simp only [subRedactF, hm, List.nil_append]
      | none =>
        have hcs : cs.length ≤ f := by
          simp only [List.length_cons] at ht
          omega
        have heq : subRedactF (f + 1) (c :: cs) = c :: subRedactF f cs := by
          simp only [subRedactF, hm]
        rcases ih cs hcs with h1 | ⟨p, t2, X, h1, h2, h3⟩
        · left
          rw [heq, h1]
        · right
          refine ⟨c :: p, t2, X, by rw [h1]; rfl, ?_, h3⟩
          rw [heq, h2]
          rfl

/-- Key stability step of the redaction scan: a position that had no
match against the original tail still has none against the redacted
tail.  The literal part of a hypothetical match cannot cross into the
replacement (`[` occurs in no literal), and a match ending exactly at
the replacement start would have matched the original input at this
position (the first character of the original matching region is
non-whitespace). -/
theorem matchURL_stable_cons {c : Char} {cs out : List Char}
    (hm : matchURL (c :: cs) = none)
    (hdec : out = cs ∨ ∃ p t2 X, cs = p ++ t2 ∧ out = p ++ REDACTED ++ X ∧
      (matchURL t2).isSome = true) :
    matchURL (c :: out) = none := by
  cases hsome : matchURL (c :: out) with
  | none => rfl
  | some r2 =>
    exfalso
    obtain ⟨lit, hmem, hlit⟩ := matchURL_some_elim hsome
    obtain ⟨pre, d, rest, h1, h2, h3, _⟩ := matchURLlit_eq_some_iff.mp hlit
    rcases hdec with hdec | ⟨p, t2, X, hd1, hd2, hd3⟩
    · rw [hdec] at h1
      have hml : matchURLlit lit (c :: cs) =
          some ((d :: rest).dropWhile (fun c2 => !pyIsSpace c2)) :=
        matchURLlit_eq_some_iff.mpr ⟨pre, d, rest, h1, h2, h3, rfl⟩
      have hs := matchURL_isSome_intro hmem (by rw [hml]; rfl)
      rw [hm] at hs
      simp at hs
    · have hrebuild : pre = c :: p → False := by
        intro hpre
        obtain ⟨rt2, hrt2⟩ := Option.isSome_iff_exists.mp hd3
        cases t2 with
        | nil =>
          rw [matchURL_nil] at hrt2
          cases hrt2
        | cons e t2x =>
          have hens : pyIsSpace e = false := head_h_not_space (matchURL_head_h hrt2)
          have hinp : c :: cs = pre ++ e :: t2x := by
            rw [hpre, hd1]
            rfl
          have hml : matchURLlit lit (c :: cs) =
              some ((e :: t2x).dropWhile (fun c2 => !pyIsSpace c2)) :=
            matchURLlit_eq_some_iff.mpr ⟨pre, e, t2x, hinp, h2, hens, rfl⟩
          have hs := matchURL_isSome_intro hmem (by rw [hml]; rfl)
          rw [hm] at hs
          simp at hs
      rw [hd2] at h1
      have h1x : (c :: p) ++ (REDACTED ++ X) = pre ++ (d :: rest) := by
        simpa [List.append_assoc] using h1
      rcases List.append_eq_append_iff.mp h1x with ⟨a, ha1, ha2⟩ | ⟨a, ha1, ha2⟩
      · cases a with
        | nil =>
          exact hrebuild (by simpa using ha1)
        | cons a0 as =>
          have ha0 : a0 = '[' := by
            have hh := congrArg List.head? ha2
            rw [REDACTED_append_head] at hh
            simp only [List.cons_append, List.head?_cons, Option.some.injEq] at hh
            exact hh.symm
          have hbr : '[' ∈ lit := by
            rw [← h2, ha1, ha0]
            refine List.mem_map.mpr ⟨'[', ?_, by decide⟩
            simp
          exact absurd hbr (URL_LITS_no_bracket lit hmem)
      · cases a with
        | nil =>
          rw [List.append_nil] at ha1
          exact hrebuild ha1.symm
        | cons a0 as =>
          have had : d = a0 := by
            have := congrArg List.head? ha2
            simpa using this
          have hinp2 : c :: cs = pre ++ a0 :: (as ++ t2) := by
            rw [hd1, ← List.cons_append, ha1]
            simp [List.append_assoc]
          have hens : pyIsSpace a0 = false := had ▸ h3
          have hml : matchURLlit lit (c :: cs) =
              some ((a0 :: (as ++ t2)).dropWhile (fun c2 => !pyIsSpace c2)) :=
            matchURLlit_eq_some_iff.mpr ⟨pre, a0, as ++ t2, hinp2, h2, hens, rfl⟩
          have hs := matchURL_isSome_intro hmem (by rw [hml]; rfl)
          rw [hm] at hs
          simp at hs

/-- The redaction scan leaves no URL match anywhere in its output. -/
theorem subRedactF_NoHit : ∀ (fuel : Nat) (t : List Char), t.length ≤ fuel →
    NoHit (subRedactF fuel t) := by
  intro fuel
  induction fuel with
  | zero =>
    intro t ht u hu
    have htn : t = [] := List.length_eq_zero.mp (Nat.le_zero.mp ht)
    subst htn
    have hun : u = [] := List.suffix_nil.mp hu
    subst hun
    exact matchURL_nil
  | succ f ih =>
    intro t ht
    cases t with
    | nil =>
      intro u hu
      have hun : u = [] := List.suffix_nil.mp hu
      subst hun
      exact matchURL_nil
    | cons c cs =>
      have hlen : cs.length ≤ f := by
        simp only [List.length_cons] at ht
        omega
      cases hm : matchURL (c :: cs) with
      | some r =>
        have hrs := matchURL_suffix_lt hm
        have hrlen : r.length ≤ f := by
          have hlt := hrs.2
          simp only [List.length_cons] at hlt ht
          omega
        have heq : subRedactF (f + 1) (c :: cs) = REDACTED ++ subRedactF f r := by
          simp only [subRedactF, hm]
        intro u hu
        rw [heq] at hu
        rcases suffix_append_cases hu with h1 | ⟨d1, hd1ne, hd1sfx, hdeq⟩
        · exact ih r hrlen u h1
        · cases d1 with
          | nil => exact absurd rfl hd1ne
          | cons e es =>
            have he : e ∈ REDACTED := hd1sfx.subset (List.mem_cons_self _ _)
            rw [hdeq, List.cons_append]
            exact matchURL_none_of_head _ (REDACTED_no_h e he)
      | none =>
        have heq : subRedactF (f + 1) (c :: cs) = c :: subRedactF f cs := by
          simp only [subRedactF, hm]
        intro u hu
        rw [heq] at hu
        rcases List.suffix_cons_iff.mp hu with h1 | h1
        · subst h1
          exact matchURL_stable_cons hm (subRedactF_decomp f cs hlen)
        · exact ih cs hlen u h1

/-! ## No-match and no-triple invariants of the newline collapse -/

/-- The collapse scan never changes the first character. -/
theorem collapseF_head (fuel : Nat) (t : List Char) :
    (collapseF fuel t).head? = t.head? := by
  cases fuel with
  | zero => rfl
  | succ f =>
    cases t with
    | nil => rfl
    | cons c cs =>
      simp only [collapseF]
      split_ifs with h
      · rw [h.1]
        rfl
      · rfl

/-- The collapse scan of the empty string is empty. -/
theorem collapseF_nil (fuel : Nat) : collapseF fuel [] = [] := by
  cases fuel <;> rfl

/-- Decomposition of the collapse scan: either the output is the input,
or output and input agree on a prefix and both continue with a
newline. -/
theorem collapseF_decomp : ∀ (fuel : Nat) (t : List Char), t.length ≤ fuel →
    collapseF fuel t = t ∨
      ∃ p X Y, collapseF fuel t = p ++ '\n' :: X ∧ t = p ++ '\n' :: Y := by
  intro fuel
  induction fuel with
  | zero => exact fun t _ => Or.inl rfl
  | succ f ih =>
    intro t ht
    cases t with
    | nil => exact Or.inl rfl
    | cons c cs =>
      by_cases hc : c = '\n'
      · subst hc
        right
        cases hout : collapseF (f + 1) ('\n' :: cs) with
        | nil =>
          have hh := collapseF_head (f + 1) ('\n' :: cs)
          rw [hout] at hh
          simp at hh
        | cons x xs =>
          have hh := collapseF_head (f + 1) ('\n' :: cs)
          rw [hout] at hh
          simp only [List.head?_cons, Option.some.injEq] at hh
          exact ⟨[], xs, cs, by simp [hh], rfl⟩
      · have heq : collapseF (f + 1) (c :: cs) = c :: collapseF f cs := by
          simp only [collapseF]
          rw [if_neg (fun hh => hc hh.1)]
        have hcs : cs.length ≤ f := by
          simp only [List.length_cons] at ht
          omega
        rcases ih cs hcs with h1 | ⟨p, X, Y, h1, h2⟩
        · left
          rw [heq, h1]
        · right
          exact ⟨c :: p, X, Y, by rw [heq, h1]; rfl, by rw [h2]; rfl⟩

/-- Key stability step of the collapse scan: a position with no match
against the original tail has none against the collapsed tail (the
literal part of a match cannot contain the inserted newline, and a
match ending at the insertion point rebuilds on the original input,
whose continuation also starts with a newline). -/
theorem matchURL_stable_cons_nl {c : Char} {cs out : List Char}
    (hm : matchURL (c :: cs) = none)
    (hdec : out = cs ∨ ∃ p X Y, out = p ++ '\n' :: X ∧ cs = p ++ '\n' :: Y) :
    matchURL (c :: out) = none := by
  cases hsome : matchURL (c :: out) with
  | none => rfl
  | some r2 =>
    exfalso
    obtain ⟨lit, hmem, hlit⟩ := matchURL_some_elim hsome
    obtain ⟨pre, d, rest, h1, h2, h3, _⟩ := matchURLlit_eq_some_iff.mp hlit
    rcases hdec with hdec | ⟨p, X, Y, hd1, hd2⟩
    · rw [hdec] at h1
      have hml : matchURLlit lit (c :: cs) =
          some ((d :: rest).dropWhile (fun c2 => !pyIsSpace c2)) :=
        matchURLlit_eq_some_iff.mpr ⟨pre, d, rest, h1, h2, h3, rfl⟩
      have hs := matchURL_isSome_intro hmem (by rw [hml]; rfl)
      rw [hm] at hs
      simp at hs
    · have hdnl : d ≠ '\n' := by
        intro hdd
        rw [hdd] at h3
        exact absurd h3 (by decide)
      rw [hd1] at h1
      have h1x : (c :: p) ++ ('\n' :: X) = pre ++ (d :: rest) := by
        simpa using h1
      rcases List.append_eq_append_iff.mp h1x with ⟨a, ha1, ha2⟩ | ⟨a, ha1, ha2⟩
      · cases a with
        | nil =>
          simp only [List.nil_append] at ha2
          exact hdnl (by
            have := congrArg List.head? ha2
            simpa using this.symm)
        | cons a0 as =>
          have ha0 : a0 = '\n' := by
            have := congrArg List.head? ha2
            simpa using this.symm
          have hnl : '\n' ∈ lit := by
            rw [← h2, ha1, ha0]
            refine List.mem_map.mpr ⟨'\n', ?_, by decide⟩
            simp
          exact absurd hnl (URL_LITS_no_newline lit hmem)
      · cases a with
        | nil =>
          rw [List.append_nil] at ha1
          simp only [List.nil_append] at ha2
          exact hdnl (by
            have := congrArg List.head? ha2
            simpa using this)
        | cons a0 as =>
          have had : d = a0 := by
            have := congrArg List.head? ha2
            simpa using this
          have hinp2 : c :: cs = pre ++ a0 :: (as ++ '\n' :: Y) := by
            rw [hd2, ← List.cons_append, ha1]
            simp [List.append_assoc]
          have hens : pyIsSpace a0 = false := had ▸ h3
          have hml : matchURLlit lit (c :: cs) =
              some ((a0 :: (as ++ '\n' :: Y)).dropWhile (fun c2 => !pyIsSpace c2)) :=
            matchURLlit_eq_some_iff.mpr ⟨pre, a0, as ++ '\n' :: Y, hinp2, h2, hens, rfl⟩
          have hs := matchURL_isSome_intro hmem (by rw [hml]; rfl)
          rw [hm] at hs
          simp at hs

/-- The collapse scan preserves the no-match invariant. -/
theorem collapseF_NoHit : ∀ (fuel : Nat) (t : List Char), t.length ≤ fuel →
    NoHit t → NoHit (collapseF fuel t) := by
  intro fuel
  induction fuel with
  | zero =>
    intro t _ hN
    exact hN
  | succ f ih =>
    intro t ht hN
    cases t with
    | nil =>
      intro u hu
      have hun : u = [] := List.suffix_nil.mp hu
      subst hun
      exact matchURL_nil
    | cons c cs =>
      have hcs : cs.length ≤ f := by
        simp only [List.length_cons] at ht
        omega
      have hNcs : NoHit cs := fun u hu => hN u (hu.trans (List.suffix_cons c cs))
      simp only [collapseF]
      split_ifs with htr
      · set t2 := (cs.drop 2).dropWhile (fun c2 => c2 = '\n') with ht2
        have hsub : t2 <:+ cs := (List.dropWhile_suffix _).trans (List.drop_suffix 2 cs)
        have hlen2 : t2.length ≤ f := le_trans hsub.length_le hcs
        have hN2 : NoHit t2 := fun u hu => hNcs u (hu.trans hsub)
        intro u hu
        rcases List.suffix_cons_iff.mp hu with h1 | h1
        · subst h1
          exact matchURL_none_of_head _ (by decide)
        rcases List.suffix_cons_iff.mp h1 with h2 | h2
        · subst h2
          exact matchURL_none_of_head _ (by decide)
        · exact ih t2 hlen2 hN2 u h2
      · intro u hu
        rcases List.suffix_cons_iff.mp hu with h1 | h1
        · subst h1
          exact matchURL_stable_cons_nl (hN (c :: cs) (List.suffix_refl _))
            (collapseF_decomp f cs hcs)
        · exact ih cs hcs hNcs u h1

/-- `NoTriple` is inherited by infixes. -/
theorem NoTriple_mono {u t : List Char} (h : NoTriple t) (hi : u <:+: t) :
    NoTriple u := fun hc => h (hc.trans hi)

/-- A two-element `take` of two newlines forces the list to start with
them. -/
theorem take_two_newlines {cs : List Char} (h : cs.take 2 = ['\n', '\n']) :
    ∃ rest, cs = '\n' :: '\n' :: rest := by
  cases cs with
  | nil => simp at h
  | cons a b =>
    cases b with
    | nil => simp at h
    | cons a2 b2 =>
      simp only [List.take_succ_cons, List.take_zero, List.cons.injEq] at h
      obtain ⟨h1, h2, -⟩ := h
      exact ⟨b2, by rw [h1, h2]⟩

/-- The collapse scan leaves no three consecutive newlines. -/
theorem collapseF_NoTriple : ∀ (fuel : Nat) (t : List Char), t.length ≤ fuel →
    NoTriple (collapseF fuel t) := by
  intro fuel
  induction fuel with
  | zero =>
    intro t ht hc
    have htn : t = [] := List.length_eq_zero.mp (Nat.le_zero.mp ht)
    subst htn
    exact absurd (List.infix_nil.mp hc) (by decide)
  | succ f ih =>
    intro t ht
    cases t with
    | nil =>
      intro hc
      exact absurd (List.infix_nil.mp hc) (by decide)
    | cons c cs =>
      have hcs : cs.length ≤ f := by
        simp only [List.length_cons] at ht
        omega
      simp only [collapseF]
      split_ifs with htr
      · set t2 := (cs.drop 2).dropWhile (fun c2 => c2 = '\n') with ht2
        have hlen2 : t2.length ≤ f :=
          le_trans ((List.dropWhile_suffix _).trans (List.drop_suffix 2 cs)).length_le hcs
        have hZhead : (collapseF f t2).head? ≠ some '\n' := by
          rw [collapseF_head]
          cases h2 : t2 with
          | nil => simp
          | cons x xs =>
            have hx := dropWhile_head_false _ (cs.drop 2) h2
            simp only [decide_eq_false_iff_not] at hx
            simpa using fun he => hx he
        intro hc
        rcases List.infix_cons_iff.mp hc with hp | hc2
        · obtain ⟨w, hw⟩ := hp
          simp only [List.cons_append, List.cons.injEq] at hw
          exact hZhead (by rw [← hw.2.2]; rfl)
        · rcases List.infix_cons_iff.mp hc2 with hp | hc3
          · obtain ⟨w, hw⟩ := hp
            simp only [List.cons_append, List.cons.injEq] at hw
            exact hZhead (by rw [← hw.2]; rfl)
          · exact ih t2 hlen2 hc3
      · intro hc
        rcases List.infix_cons_iff.mp hc with hp | hc2
        · obtain ⟨w, hw⟩ := hp
          simp only [List.cons_append, List.cons.injEq] at hw
          have hcq : c = '\n' := hw.1.symm
          have htk : ¬ cs.take 2 = ['\n', '\n'] := fun hh => htr ⟨hcq, hh⟩
          have hEQ : collapseF f cs = '\n' :: '\n' :: w := hw.2.symm
          have hcs_head : cs.head? = some '\n' := by
            rw [← collapseF_head f cs, hEQ]
            rfl
          cases cs with
          | nil => simp at hcs_head
          | cons e cs2 =>
            have he : e = '\n' := by simpa using hcs_head
            subst he
            cases f with
            | zero =>
              simp only [List.length_cons] at hcs
              omega
            | succ f2 =>
              by_cases hcc : cs2.take 2 = ['\n', '\n']
              · obtain ⟨r2, hr2⟩ := take_two_newlines hcc
                exact htk (by rw [hr2]; rfl)
              · have heq2 : collapseF (f2 + 1) ('\n' :: cs2) =
                    '\n' :: collapseF f2 cs2 := by
                  simp only [collapseF]
                  rw [if_neg (fun hh => hcc hh.2)]
                rw [heq2] at hEQ
                simp only [List.cons.injEq] at hEQ
                have hcs2_head : cs2.head? = some '\n' := by
                  rw [← collapseF_head f2 cs2, hEQ.2]
                  rfl
                cases cs2 with
                | nil => simp at hcs2_head
                | cons e2 cs3 =>
                  have he2 : e2 = '\n' := by simpa using hcs2_head
                  subst he2
                  exact htk rfl
        · exact ih cs hcs hc2

/-- A string with no triple newline is a fixed point of the collapse
scan. -/
theorem collapseF_id_of_NoTriple : ∀ (fuel : Nat) (t : List Char), t.length ≤ fuel →
    NoTriple t → collapseF fuel t = t := by
  intro fuel
  induction fuel with
  | zero => exact fun t _ _ => rfl
  | succ f ih =>
    intro t ht hNT
    cases t with
    | nil => rfl
    | cons c cs =>
      have hcs : cs.length ≤ f := by
        simp only [List.length_cons] at ht
        omega
      simp only [collapseF]
      split_ifs with htr
      · obtain ⟨rest, hrest⟩ := take_two_newlines htr.2
        exact absurd (by rw [htr.1, hrest]; exact ⟨[], rest, rfl⟩) hNT
      · rw [ih cs hcs (NoTriple_mono hNT (List.suffix_cons c cs).isInfix)]

/-- `pyStrip` preserves the no-match invariant. -/
theorem NoHit_pyStrip {t : List Char} (h : NoHit t) : NoHit (pyStrip t) := by
  intro u hu
  obtain ⟨W, hW, -⟩ := pyRstrip_decomp (pyLstrip t)
  have h1 : u ++ W <:+ pyLstrip t := by
    rw [hW]
    exact suffix_append_both hu W
  have h2 : u ++ W <:+ t := h1.trans (pyLstrip_suffix_of_self t)
  cases hmu : matchURL u with
  | none => rfl
  | some r =>
    have hS := @matchURL_isSome_append u W (by rw [hmu]; rfl)
    rw [h (u ++ W) h2] at hS
    simp at hS

/-! ## Repo-Link freeness -/

/-- An element named by `getLast?` is a member. -/
theorem mem_of_getLast?_eq {α : Type} {l : List α} {a : α}
    (h : l.getLast? = some a) : a ∈ l := by
  rw [← List.head?_reverse] at h
  cases hrev : l.reverse with
  | nil =>
    rw [hrev] at h
    cases h
  | cons x xs =>
    rw [hrev] at h
    simp only [List.head?_cons, Option.some.injEq] at h
    have hx : a ∈ l.reverse := by
      rw [hrev, h]
      exact List.mem_cons_self _ _
    simpa using hx

/-- `lazyUptoParen` consumes at least one character. -/
theorem lazyUptoParen_lt {s r : List Char} :
    lazyUptoParen s = some r → r.length < s.length := by
  induction s generalizing r with
  | nil => intro h; cases h
  | cons c cs ih =>
    intro h
    simp only [lazyUptoParen] at h
    split_ifs at h with h1 h2
    · cases h
      simp
    · have := ih h
      simp only [List.length_cons]
      omega

/-- `lazyBracketParen` consumes at least one character. -/
theorem lazyBracketParen_lt {s r : List Char} :
    lazyBracketParen s = some r → r.length < s.length := by
  induction s generalizing r with
  | nil => intro h; cases h
  | cons c cs ih =>
    intro h
    simp only [lazyBracketParen] at h
    split at h
    next r1 heq =>
      cases h
      split_ifs at heq with hc
      split at heq
      next cs2 =>
        have := lazyUptoParen_lt heq
        simp only [List.length_cons] at *
        omega
      next => cases heq
    next heq =>
      split_ifs at h with h2
      have := ih h
      simp only [List.length_cons]
      omega

/-- A successful `matchRepoLink` witnesses the literal in the input. -/
theorem matchRepoLink_infix_lit {s r : List Char} (h : matchRepoLink s = some r) :
    "**Repo Link:**".data <:+: s := by
  unfold matchRepoLink at h
  cases hst : stripPrefixExact "**Repo Link:**".data (s.dropWhile fun c => c = '\n') with
  | none =>
    simp only [hst] at h
    cases h
  | some s2 =>
    have hs1 := stripPrefixExact_eq_some.mp hst
    have hpre : "**Repo Link:**".data <+: (s.dropWhile fun c => c = '\n') :=
      ⟨s2, hs1.symm⟩
    exact hpre.isInfix.trans (List.dropWhile_suffix _).isInfix

/-- A successful `matchRepoLink` consumes at least one character. -/
theorem matchRepoLink_lt {s r : List Char} (h : matchRepoLink s = some r) :
    r.length < s.length := by
  unfold matchRepoLink at h
  cases hst : stripPrefixExact "**Repo Link:**".data (s.dropWhile fun c => c = '\n') with
  | none =>
    simp only [hst] at h
    cases h
  | some s2 =>
    simp only [hst] at h
    have hs1 := stripPrefixExact_eq_some.mp hst
    have hlen1 : (s.dropWhile fun c => c = '\n').length ≤ s.length :=
      (List.dropWhile_suffix _).length_le
    have hlen2 : s2.length + 14 = (s.dropWhile fun c => c = '\n').length := by
      rw [hs1]
      simp
    split_ifs at h with hcond
    split at h
    next s4 heq3 =>
      split at h
      next r0 heq4 =>
        cases h
        have l1 : r0.length < s4.length := lazyBracketParen_lt heq4
        have l2 : (r0.dropWhile pyIsSpace).length ≤ r0.length :=
          (List.dropWhile_suffix _).length_le
        have l3 : ('[' :: s4).length ≤ s2.length := by
          rw [← heq3]
          exact (List.dropWhile_suffix _).length_le
        simp only [List.length_cons] at l3
        omega
      next => cases h
    next => cases h

/-- Stage 1 is the identity on Repo-Link-free strings. -/
theorem subRepoLinkF_id_of_noRL : ∀ (fuel : Nat) (s : List Char), s.length ≤ fuel →
    ¬ ("**Repo Link:**".data <:+: s) → subRepoLinkF fuel s = s := by
  intro fuel
  induction fuel with
  | zero => exact fun s _ _ => rfl
  | succ f ih =>
    intro s hlen hnRL
    cases s with
    | nil => rfl
    | cons c cs =>
      cases hm : matchRepoLink (c :: cs) with
      | some r => exact absurd (matchRepoLink_infix_lit hm) hnRL
      | none =>
        have heq : subRepoLinkF (f + 1) (c :: cs) = c :: subRepoLinkF f cs := by
          simp only [subRepoLinkF, hm]
        have hcs : cs.length ≤ f := by
          simp only [List.length_cons] at hlen
          omega
        rw [heq, ih cs hcs
          (fun hc => hnRL (hc.trans (List.suffix_cons c cs).isInfix))]

/-- Prefix transfer through an inserted block whose first character
does not occur in the pattern. -/
theorem prefix_through_insert {q p ins X : List Char}
    (h : q <+: p ++ (ins ++ X)) (hne : ins ≠ [])
    (hch : ∀ e, ins.head? = some e → e ∉ q) : q <+: p := by
  rcases prefix_append_cases h with h1 | ⟨q2, hq2, hq2p⟩
  · exact h1
  · cases q2 with
    | nil =>
      rw [List.append_nil] at hq2
      exact hq2 ▸ List.prefix_refl p
    | cons e es =>
      cases ins with
      | nil => exact absurd rfl hne
      | cons i0 is =>
        have he : e = i0 := by
          have hh := head?_of_prefix hq2p (by simp)
          simpa using hh
        rw [he] at hq2
        exact absurd (by rw [hq2]; simp : i0 ∈ q) (hch i0 rfl)

/-- The redaction scan preserves Repo-Link-freeness. -/
theorem subRedactF_noRL : ∀ (fuel : Nat) (t : List Char), t.length ≤ fuel →
    ¬ ("**Repo Link:**".data <:+: t) →
    ¬ ("**Repo Link:**".data <:+: subRedactF fuel t) := by
  intro fuel
  induction fuel with
  | zero => exact fun t _ h => h
  | succ f ih =>
    intro t ht hnRL
    cases t with
    | nil => exact hnRL
    | cons c cs =>
      have hcs : cs.length ≤ f := by
        simp only [List.length_cons] at ht
        omega
      cases hm : matchURL (c :: cs) with
      | some r =>
        have hrs := matchURL_suffix_lt hm
        have hrlen : r.length ≤ f := by
          have hlt := hrs.2
          simp only [List.length_cons] at hlt ht
          omega
        have heq : subRedactF (f + 1) (c :: cs) = REDACTED ++ subRedactF f r := by
          simp only [subRedactF, hm]
        rw [heq]
        intro hc
        rcases infix_append_cases hc with h1 | h1 | ⟨l1, l2, hl, hl1ne, hl1sfx, -⟩
        · exact absurd h1 (by decide)
        · exact ih r hrlen (fun hcr => hnRL (hcr.trans hrs.1.isInfix)) h1
        · have hlast : l1.getLast? = some ']' := by
            rw [getLast?_of_suffix hl1sfx hl1ne]
            decide
          have hmem : ']' ∈ "**Repo Link:**".data := by
            rw [hl]
            exact List.mem_append_left _ (mem_of_getLast?_eq hlast)
          exact absurd hmem (by decide)
      | none =>
        have heq : subRedactF (f + 1) (c :: cs) = c :: subRedactF f cs := by
          simp only [subRedactF, hm]
        rw [heq]
        intro hc
        rcases List.infix_cons_iff.mp hc with hp | hi
        · rcases subRedactF_decomp f cs hcs with hdec | ⟨p, t2, X, hd1, hd2, -⟩
          · rw [hdec] at hp
            exact hnRL hp.isInfix
          · rw [hd2] at hp
            have hp2 : "**Repo Link:**".data <+: (c :: p) ++ (REDACTED ++ X) := by
              simpa using hp
            have hq := prefix_through_insert hp2 REDACTED_ne_nil (fun e hee => by
              rw [REDACTED_head] at hee
              cases hee
              decide)
            have hcp : "**Repo Link:**".data <+: c :: cs :=
              hq.trans ⟨t2, by rw [hd1]; rfl⟩
            exact hnRL hcp.isInfix
        · exact ih cs hcs
            (fun hcr => hnRL (hcr.trans (List.suffix_cons c cs).isInfix)) hi

/-- The collapse scan preserves Repo-Link-freeness. -/
theorem collapseF_noRL : ∀ (fuel : Nat) (t : List Char), t.length ≤ fuel →
    ¬ ("**Repo Link:**".data <:+: t) →
    ¬ ("**Repo Link:**".data <:+: collapseF fuel t) := by
  intro fuel
  induction fuel with
  | zero => exact fun t _ h => h
  | succ f ih =>
    intro t ht hnRL
    cases t with
    | nil => exact hnRL
    | cons c cs =>
      have hcs : cs.length ≤ f := by
        simp only [List.length_cons] at ht
        omega
      simp only [collapseF]
      split_ifs with htr
      · set t2 := (cs.drop 2).dropWhile (fun c2 => c2 = '\n') with ht2
        have hsub : t2 <:+ cs := (List.dropWhile_suffix _).trans (List.drop_suffix 2 cs)
        have hlen2 : t2.length ≤ f := le_trans hsub.length_le hcs
        intro hc
        rcases List.infix_cons_iff.mp hc with hp | hc2
        · have hh := head?_of_prefix hp (by decide)
          simp only [List.head?_cons] at hh
          exact absurd hh (by decide)
        rcases List.infix_cons_iff.mp hc2 with hp | hc3
        · have hh := head?_of_prefix hp (by decide)
          simp only [List.head?_cons] at hh
          exact absurd hh (by decide)
        · exact ih t2 hlen2
            (fun hcr => hnRL (hcr.trans (hsub.trans (List.suffix_cons c cs)).isInfix)) hc3
      · intro hc
        rcases List.infix_cons_iff.mp hc with hp | hi
        · rcases collapseF_decomp f cs hcs with hdec | ⟨p, X, Y, hd1, hd2⟩
          · rw [hdec] at hp
            exact hnRL hp.isInfix
          · rw [hd1] at hp
            have hp2 : "**Repo Link:**".data <+: (c :: p) ++ (['\n'] ++ X) := by
              simpa using hp
            have hq := prefix_through_insert hp2 (by simp) (fun e hee => by
              simp only [List.head?_cons, Option.some.injEq] at hee
              rw [← hee]
              decide)
            have hcp : "**Repo Link:**".data <+: c :: cs :=
              hq.trans ⟨'\n' :: Y, by rw [hd2]; rfl⟩
            exact hnRL hcp.isInfix
        · exact ih cs hcs
            (fun hcr => hnRL (hcr.trans (List.suffix_cons c cs).isInfix)) hi

/-- Stage 2 is the identity on strings with the no-match invariant. -/
theorem subRedactF_id_of_NoHit : ∀ (fuel : Nat) (t : List Char), t.length ≤ fuel →
    NoHit t → subRedactF fuel t = t := by
  intro fuel
  induction fuel with
  | zero => exact fun t _ _ => rfl
  | succ f ih =>
    intro t ht hN
    cases t with
    | nil => rfl
    | cons c cs =>
      cases hm : matchURL (c :: cs) with
      | some r =>
        rw [hN (c :: cs) (List.suffix_refl _)] at hm
        cases hm
      | none =>
        have hcs : cs.length ≤ f := by
          simp only [List.length_cons] at ht
          omega
        have heq : subRedactF (f + 1) (c :: cs) = c :: subRedactF f cs := by
          simp only [subRedactF, hm]
        rw [heq, ih cs hcs (fun u hu => hN u (hu.trans (List.suffix_cons c cs)))]

/-- C7 (amended): `sanitize_prompt` is idempotent on every input that
does not contain the substring `**Repo Link:**`: removing the Repo-Link
block can splice surrounding text into a new removable block, but on
Repo-Link-free input the first pass already produces a fixed point of
all three rewriting stages and of the final strip. -/
theorem sanitize_prompt_idem_of_no_repolink (s : List Char)
    (h : ¬ ("**Repo Link:**".data <:+: s)) :
    sanitize_prompt (sanitize_prompt s) = sanitize_prompt s := by
  have h1 : subRepoLink s = s := subRepoLinkF_id_of_noRL s.length s le_rfl h
  have hzRL : ¬ ("**Repo Link:**".data <:+: subRedact s) :=
    subRedactF_noRL s.length s le_rfl h
  have hwRL : ¬ ("**Repo Link:**".data <:+: collapseNewlines (subRedact s)) :=
    collapseF_noRL (subRedact s).length (subRedact s) le_rfl hzRL
  have hyRL : ¬ ("**Repo Link:**".data <:+:
      pyStrip (collapseNewlines (subRedact s))) :=
    fun hc => hwRL (hc.trans (pyStrip_infix_of_self _))
  have hzN : NoHit (subRedact s) := subRedactF_NoHit s.length s le_rfl
  have hwN : NoHit (collapseNewlines (subRedact s)) :=
    collapseF_NoHit (subRedact s).length (subRedact s) le_rfl hzN
  have hyN : NoHit (pyStrip (collapseNewlines (subRedact s))) := NoHit_pyStrip hwN
  have hwT : NoTriple (collapseNewlines (subRedact s)) :=
    collapseF_NoTriple (subRedact s).length (subRedact s) le_rfl
  have hyT : NoTriple (pyStrip (collapseNewlines (subRedact s))) :=
    NoTriple_mono hwT (pyStrip_infix_of_self _)
  have hs_eq : sanitize_prompt s = pyStrip (collapseNewlines (subRedact s)) := by
    unfold sanitize_prompt
    rw [h1]
  set y := pyStrip (collapseNewlines (subRedact s)) with hy
  have e1 : subRepoLink y = y := subRepoLinkF_id_of_noRL y.length y le_rfl hyRL
  have e2 : subRedact y = y := subRedactF_id_of_NoHit y.length y le_rfl hyN
  have e3 : collapseNewlines y = y := collapseF_id_of_NoTriple y.length y le_rfl hyT
  have e4 : pyStrip y = y := by
    rw [hy]
    exact pyStrip_idem _
  rw [hs_eq]
  show pyStrip (collapseNewlines (subRedact (subRepoLink y))) = y
  rw [e1, e2, e3, e4]

/-- Witness for the amended C7 theorem at a concrete Repo-Link-free
prompt containing a URL and a triple newline. -/
theorem sanitize_prompt_idem_of_no_repolink_w :
    ¬ ("**Repo Link:**".data <:+: "See https://github.com/x\n\n\nEnd".data) ∧
      sanitize_prompt (sanitize_prompt "See https://github.com/x\n\n\nEnd".data) =
        sanitize_prompt "See https://github.com/x\n\n\nEnd".data :=
  ⟨by decide, sanitize_prompt_idem_of_no_repolink _ (by decide)⟩

/-! ## Claim C7, counterexample -/

/-- C7, counterexample: `sanitize_prompt` is not idempotent.  On
`"**Repo Link:**\n**Repo Link:**\n[x](y)\n[a](b)"` the first pass
removes only the inner Repo-Link block (the outer `**Repo Link:**` is
not followed by a newline-then-bracket, so it does not match), splicing
the leftover literal together with the trailing `[a](b)` into a block
that only the second pass removes: pass one yields
`"**Repo Link:**\n\n[a](b)"`, pass two yields `""`. -/
theorem sanitize_prompt_not_idempotent :
    sanitize_prompt (sanitize_prompt
      "**Repo Link:**\n**Repo Link:**\n[x](y)\n[a](b)".data) ≠
      sanitize_prompt "**Repo Link:**\n**Repo Link:**\n[x](y)\n[a](b)".data := by
  decide

end AgentEval
